import Mathlib

/-!
Verification of the squashfile on-disk image engine (`libsquash`).

This file shallowly embeds the read pipeline (`src/disk/mod.rs`,
`src/fs.rs`), the ChaCha20 cipher layer (`src/disk/crypto.rs`) and the
writer (`src/disk/write.rs`) as executable Lean definitions, and proves
or refutes the frozen claims about them.

Modelling conventions:
* A byte store (`Vec<u8>` behind the `ReadAt` trait) is a `List Nat`;
  bytes are naturals (real images have entries `< 256`).
* `u64` arithmetic that can wrap in release builds is modelled with an
  explicit `% 2^64`; plain `Nat` arithmetic is used where the Rust
  computation cannot overflow.
* Fallible Rust functions return `Except SqErr`; a Rust panic (e.g. an
  out-of-bounds slice index) is modelled by the distinguished
  `RunRes.panics` outcome, and exhaustion of the explicit fuel given to
  the (possibly non-terminating) binary-search loop by `RunRes.nofuel`.
* The ChaCha20 keystream produced by the external `chacha20` crate is an
  abstract parameter `ks : List Nat → Nat → Nat` mapping a 12-byte nonce
  and an intra-window stream position to a keystream byte; the layer's own
  logic (nonce construction, window splitting, seeking, XOR) is embedded
  from the source.
-/

/-- Error kinds of `src/error.rs` (`Error`); the payload is the static
message string carried by the Rust constructor. -/
inductive SqErr where
  | io : String → SqErr
  | crypto : String → SqErr
  | compression : String → SqErr
  | format : String → SqErr
  | bounds : String → SqErr
  | invalidOperation : String → SqErr
deriving DecidableEq, Repr

/-- Outcome of running a piece of Rust code that may panic, and whose
inner loops are driven by explicit fuel: `panics` models a Rust panic,
`nofuel` exhaustion of the fuel given to a loop that is not provably
terminating on adversarial input, and `ret` a normal (possibly erroneous)
return. -/
inductive RunRes (α : Type) where
  | panics : RunRes α
  | nofuel : RunRes α
  | ret : Except SqErr α → RunRes α
deriving Repr

/-- The modulus of 64-bit machine arithmetic. -/
def U64 : Nat := 2 ^ 64

/-- Little-endian decoding of 8 bytes (`u64le::from` / `u64::from_le`). -/
def le64 (bs : List Nat) : Nat :=
  match bs with
  | [] => 0
  | b :: rest => b + 256 * le64 rest

/-- Little-endian encoding of a `u64` into 8 bytes (`u64le` on disk). -/
def le64b (x : Nat) : List Nat :=
  [x % 256, x / 256 % 256, x / 256 ^ 2 % 256, x / 256 ^ 3 % 256,
   x / 256 ^ 4 % 256, x / 256 ^ 5 % 256, x / 256 ^ 6 % 256, x / 256 ^ 7 % 256]

/-- Read a slice of `k` bytes at position `p` of a byte store. -/
def readSlice (d : List Nat) (p k : Nat) : List Nat :=
  (d.drop p).take k

/-- Positioned read over a memory-backed store
(`impl ReadAt for Vec<u8>::read_at`): a short read past the end,
`Ok(0)` when the offset is beyond the buffer. -/
def vecReadAt (img : List Nat) (bufLen off : Nat) : List Nat :=
  if off > img.length then []
  else readSlice img off (min bufLen (img.length - off))

/-- The default `ReadAt::read_exact_at` loop: repeat `read_at` until the
buffer is full, failing with an unexpected-EOF I/O error if a zero-length
read occurs first.  Interrupt retries do not arise for a memory store. -/
def readExactGo (img : List Nat) (bufLen off : Nat) : Except SqErr (List Nat) :=
  if bufLen = 0 then .ok []
  else if (vecReadAt img bufLen off).length = 0 then .error (.io "UnexpectedEof")
  else
    match readExactGo img (bufLen - (vecReadAt img bufLen off).length)
        (off + (vecReadAt img bufLen off).length) with
    | .error e => .error e
    | .ok rest => .ok (vecReadAt img bufLen off ++ rest)
termination_by bufLen
decreasing_by
  have hle : (vecReadAt img bufLen off).length ≤ bufLen := by
    unfold vecReadAt readSlice
    split
    · simp
    · simp only [List.length_take, List.length_drop]
      omega
  omega

/-- `ReadAt::read_exact_at` over a memory-backed store. -/
def readExactAt (img : List Nat) (bufLen off : Nat) : Except SqErr (List Nat) :=
  readExactGo img bufLen off

/-- On-disk magic bytes `SQUASHFL` (`disk::MAGIC`). -/
def MAGICb : List Nat := [83, 81, 85, 65, 83, 72, 70, 76]

/-- `disk::VERSION_MAJOR`. -/
def VERSION_MAJOR : Nat := 0

/-- `disk::VERSION_MINOR`. -/
def VERSION_MINOR : Nat := 0

/-- Inode record (`disk::Inode`, 32 bytes on disk); fields hold the
decoded little-endian values, `inode_ty` the raw type byte. -/
structure Inode where
  parent_inode : Nat
  offset : Nat
  size : Nat
  inode_ty : Nat
deriving DecidableEq, Repr

/-- Directory entry record (`disk::Dirent`, 16 bytes on disk). -/
structure Dirent where
  name : Nat
  inode : Nat
deriving DecidableEq, Repr

/-- Header record (`disk::Header`, 32 bytes on disk). -/
structure Header where
  magic : List Nat
  root_inode : Nat
  version_major : Nat
  version_minor : Nat
  compression_ty : Nat
  encryption_ty : Nat
deriving DecidableEq, Repr

/-- `disk::InodeType` discriminants. -/
inductive InodeType where
  | directory
  | file
  | symlink
deriving DecidableEq, Repr

/-- `InodeType::try_from::<u8>`: 0 directory, 1 file, 2 symlink, any other
discriminant is a format error. -/
def InodeType.tryFrom (v : Nat) : Except SqErr InodeType :=
  if v = 0 then .ok .directory
  else if v = 1 then .ok .file
  else if v = 2 then .ok .symlink
  else .error (.format "InodeType")

/-- `EncryptionType` discriminants (`disk::EncryptionType`). -/
inductive EncryptionType where
  | none
  | chacha20
deriving DecidableEq, Repr

/-- `EncryptionType::try_from::<u8>`: 0 none, 1 ChaCha20, else format error. -/
def EncryptionType.tryFrom (v : Nat) : Except SqErr EncryptionType :=
  if v = 0 then .ok .none
  else if v = 1 then .ok .chacha20
  else .error (.format "EncryptionType")

/-- `CompressionType` discriminants (`disk::CompressionType`). -/
inductive CompressionType where
  | none
deriving DecidableEq, Repr

/-- `CompressionType::try_from::<u8>`: 0 none, else format error. -/
def CompressionType.tryFrom (v : Nat) : Except SqErr CompressionType :=
  if v = 0 then .ok .none
  else .error (.format "CompressionType")

/-- Decode the 32 raw bytes of an inode record (the struct punning of
`Image::read_inode` made explicit: three little-endian `u64`s, one type
byte, 7 pad bytes). -/
def decodeInode (bs : List Nat) : Inode :=
  { parent_inode := le64 (readSlice bs 0 8)
    offset := le64 (readSlice bs 8 8)
    size := le64 (readSlice bs 16 8)
    inode_ty := (readSlice bs 24 1).headD 0 }

/-- Decode the 16 raw bytes of a dirent record. -/
def decodeDirent (bs : List Nat) : Dirent :=
  { name := le64 (readSlice bs 0 8)
    inode := le64 (readSlice bs 8 8) }

/-- Decode the 32 raw bytes of the header record. -/
def decodeHeader (bs : List Nat) : Header :=
  { magic := readSlice bs 0 8
    root_inode := le64 (readSlice bs 8 8)
    version_major := (readSlice bs 16 1).headD 0
    version_minor := (readSlice bs 17 1).headD 0
    compression_ty := (readSlice bs 18 1).headD 0
    encryption_ty := (readSlice bs 19 1).headD 0 }

/-- `Image::read_inode`: exact positioned read of 32 bytes, then decode. -/
def readInode (img : List Nat) (off : Nat) : Except SqErr Inode :=
  match readExactAt img 32 off with
  | .error e => .error e
  | .ok bs => .ok (decodeInode bs)

/-- `Image::read_dirent`: exact positioned read of 16 bytes, then decode. -/
def readDirent (img : List Nat) (off : Nat) : Except SqErr Dirent :=
  match readExactAt img 16 off with
  | .error e => .error e
  | .ok bs => .ok (decodeDirent bs)

/-- `read_header`: exact positioned read of 32 bytes at offset 0. -/
def readHeader (img : List Nat) : Except SqErr Header :=
  match readExactAt img 32 0 with
  | .error e => .error e
  | .ok bs => .ok (decodeHeader bs)

/-- One step of `Image::read_str`: scan the 32-byte chunk read at `off`
for the NUL terminator (`memchr`); accumulates into `acc`.  Returns the
CString bytes including the terminating NUL
(`CString::from_vec_with_nul_unchecked`). -/
def readStrGo (img : List Nat) (acc : List Nat) (off : Nat) : Except SqErr (List Nat) :=
  if (vecReadAt img 32 off).length = 0 then .error (.io "UnexpectedEof")
  else
    match (vecReadAt img 32 off).findIdx? (· = 0) with
    | some i => .ok (acc ++ (vecReadAt img 32 off).take (i + 1))
    | none => readStrGo img (acc ++ vecReadAt img 32 off) (off + (vecReadAt img 32 off).length)
termination_by img.length + 1 - off
decreasing_by
  have hlen : (vecReadAt img 32 off).length = if off > img.length then 0
      else min 32 (img.length - off) := by
    unfold vecReadAt readSlice
    split
    · simp
    · simp only [List.length_take, List.length_drop]
      omega
  by_cases ho : off > img.length
  · rw [if_pos ho] at hlen
    simp_all
  · rw [if_neg ho] at hlen
    omega

/-- `Image::read_str`: read a NUL-terminated byte string starting at
`off` by scanning 32-byte chunks. -/
def readStr (img : List Nat) (off : Nat) : Except SqErr (List Nat) :=
  readStrGo img [] off

/-- `Dirent::inode`: read the child inode record this dirent points at. -/
def Dirent.readInodeOf (d : Dirent) (img : List Nat) : Except SqErr Inode :=
  readInode img d.inode

/-- `Dirent::name`: the NUL-terminated name string this dirent points at
(bytes including the NUL, as in `CString`). -/
def Dirent.readName (d : Dirent) (img : List Nat) : Except SqErr (List Nat) :=
  readStr img d.name

/-- `Inode::inode_type`. -/
def Inode.inodeType (i : Inode) : Except SqErr InodeType :=
  InodeType.tryFrom i.inode_ty

/-- `Inode::parent_inode`: read the parent inode record. -/
def Inode.parentInode (i : Inode) (img : List Nat) : Except SqErr Inode :=
  readInode img i.parent_inode

/-- `Inode::read_dirent`: dirent of a directory inode by table position.
The position-to-offset multiplication and the offset addition are 64-bit
and wrap as in a release build. -/
def Inode.readDirentAt (i : Inode) (pos : Nat) (img : List Nat) : Except SqErr Dirent :=
  match i.inodeType with
  | .error e => .error e
  | .ok ty =>
    if ty ≠ .directory then .error (.invalidOperation "Reading dirents from non-directory")
    else
      let offset := pos * 16 % U64
      if offset > i.size then .error (.bounds "dirent pos is beyond the directory")
      else readDirent img ((offset + i.offset) % U64)

/-- `Inode::read_at`: positioned read clamped against the inode size;
returns the bytes read (their count is the Rust return value). -/
def Inode.readAt (i : Inode) (bufLen off : Nat) (img : List Nat) : Except SqErr (List Nat) :=
  if off > i.size then .ok []
  else
    let sz := min bufLen (i.size - off)
    match readExactAt img sz ((i.offset + off) % U64) with
    | .error e => .error e
    | .ok bs => .ok bs

/-- `Inode::read_exact_at`: checked exact read against the inode size;
the `off + buf.len()` sum is 64-bit and wraps as in a release build. -/
def Inode.readExactAtI (i : Inode) (bufLen off : Nat) (img : List Nat) : Except SqErr (List Nat) :=
  if (off + bufLen) % U64 > i.size then .error (.io "UnexpectedEof")
  else readExactAt img bufLen ((i.offset + off) % U64)

/-- `Image::root_inode` given the decoded header. -/
def rootInode (img : List Nat) (h : Header) : Except SqErr Inode :=
  readInode img h.root_inode

/-- `fs::LINK_LOOP_MAX`: maximum symlink resolution depth. -/
def LINK_LOOP_MAX : Nat := 100

/-- `fs::LINK_TARGET_MAX`: maximum symlink target length. -/
def LINK_TARGET_MAX : Nat := 1024

/-- Byte-string comparison (`<[u8] as Ord>::cmp`): lexicographic on
bytes, a strict prefix is less. -/
def bytesCmp : List Nat → List Nat → Ordering
  | [], [] => .eq
  | [], _ :: _ => .lt
  | _ :: _, [] => .gt
  | x :: xs, y :: ys =>
    match compare x y with
    | .eq => bytesCmp xs ys
    | .lt => .lt
    | .gt => .gt

/-- An open image: the (already decrypted) byte store plus the decoded
header (`disk::Image`). -/
structure Image where
  data : List Nat
  header : Header
deriving DecidableEq, Repr

/-- `Image::root_inode` for an open image. -/
def Image.rootInodeOf (img : Image) : Except SqErr Inode :=
  readInode img.data img.header.root_inode

/-- Validation performed by `EncryptChaCha20::new` (crypto.rs) on its key
material: absent key is a crypto error, and the length must be
`ChaCha20::key_size() + ChaCha20::iv_size() - 8 = 32 + 12 - 8 = 36`.
(`open_file` in mod.rs passes the file, key and nonce to the constructor,
whose signature in crypto.rs consumes the combined 36-byte key material;
we apply the constructor's validation to the key argument.) -/
def chachaNew (k : Option (List Nat)) : Except SqErr Unit :=
  match k with
  | none => .error (.crypto "No key provided")
  | some key =>
    if key.length ≠ 32 + 12 - 8 then .error (.crypto "Invalid key length")
    else .ok ()

/-- `disk::open_file`: read and validate the header, install the cipher
wrapper if any, validate the compression type, return the image handle. -/
def openFile (img : List Nat) (key nonce : Option (List Nat)) : Except SqErr Image :=
  match readHeader img with
  | .error e => .error e
  | .ok header =>
    if header.magic ≠ MAGICb then .error (.format "Wrong magic")
    else if header.version_major ≠ VERSION_MAJOR then
      .error (.format "Unsupported major version")
    else if header.version_minor ≠ VERSION_MINOR then
      .error (.format "Unsupported minor version")
    else
      match EncryptionType.tryFrom header.encryption_ty with
      | .error e => .error e
      | .ok et =>
        match (match et with
          | .none => Except.ok ()
          | .chacha20 =>
            match key with
            | none => Except.error (SqErr.crypto "No provided key")
            | some k =>
              match nonce with
              | none => Except.error (SqErr.crypto "No provided nonce")
              | some _ => chachaNew (some k)) with
        | .error e => .error e
        | .ok _ =>
          match CompressionType.tryFrom header.compression_ty with
          | .error e => .error e
          | .ok ct =>
            if ct ≠ .none then .error (.bounds "Unsupported compression type")
            else .ok ⟨img, header⟩

/-- `fs::get_link`: reject symlink targets longer than `LINK_TARGET_MAX`,
otherwise allocate a `size`-byte buffer and fill it with `read_at`. -/
def getLink (inode : Inode) (img : List Nat) : Except SqErr (List Nat) :=
  if inode.size > LINK_TARGET_MAX then .error (.bounds "link target too long")
  else
    match inode.readAt inode.size 0 img with
    | .error e => .error e
    | .ok bs => .ok bs

/-- `Directory::len`: `size / size_of::<Dirent>()`. -/
def dirLen (i : Inode) : Nat := i.size / 16

/-- `Directory::get`: `Ok(None)` at or past `len()`, otherwise a dirent
read by position. -/
def dirGet (img : List Nat) (i : Inode) (pos : Nat) : Except SqErr (Option Dirent) :=
  if pos ≥ dirLen i then .ok none
  else
    match i.readDirentAt pos img with
    | .error e => .error e
    | .ok d => .ok (some d)

/-- `ReadDir::next` at iterator position `pos`: `None` ends the
iteration, `Some` yields a fallible entry; the position always
advances by one. -/
def readDirNext (img : List Nat) (i : Inode) (pos : Nat) :
    Option (Except SqErr Dirent) :=
  match dirGet img i pos with
  | .error e => some (.error e)
  | .ok none => none
  | .ok (some d) => some (.ok d)

/-- Driving the `ReadDir` iterator from position `pos` for at most `fuel`
steps, collecting every yielded item. -/
def readDirRun (img : List Nat) (i : Inode) : Nat → Nat → List (Except SqErr Dirent)
  | _, 0 => []
  | pos, fuel + 1 =>
    match readDirNext img i pos with
    | none => []
    | some it => it :: readDirRun img i (pos + 1) fuel

/-- The `fs::binary_search` loop body with explicit fuel.  `min`/`max`
are `u64`; the interval is the source's closed `[min, max]` with
`max` initialised to the entry count, and the `mid - 1` / `mid + 1`
updates wrap at `2^64` as in a release build (the `mid - 1` underflow
panics in a debug build). -/
def binarySearchGo (img : List Nat) (inode : Inode) (name : List Nat) :
    Nat → Nat → Nat → Option (Except SqErr (Option Inode))
  | _, _, 0 => none
  | mn, mx, fuel + 1 =>
    if mn ≤ mx then
      let mid := (mx - mn) / 2 + mn
      match inode.readDirentAt mid img with
      | .error e => some (.error e)
      | .ok val =>
        match val.readName img with
        | .error e => some (.error e)
        | .ok nm =>
          match bytesCmp name nm.dropLast with
          | .eq =>
            match val.readInodeOf img with
            | .error e => some (.error e)
            | .ok vi => some (.ok (some vi))
          | .lt => binarySearchGo img inode name mn ((mid + (U64 - 1)) % U64) fuel
          | .gt => binarySearchGo img inode name ((mid + 1) % U64) mx fuel
    else some (.ok none)

/-- `fs::binary_search`: search a directory's dirent table for `name`
(compared against the entry name without its NUL, `CString::into_bytes`). -/
def binarySearch (img : List Nat) (inode : Inode) (name : List Nat) (fuel : Nat) :
    Option (Except SqErr (Option Inode)) :=
  binarySearchGo img inode name 0 (inode.size / 16) fuel

/-- The `for elem in path.split(b'/')` loop of `fs::resolve_path`; `rec`
is the recursive symlink resolution at depth `count + 1` against the
directory current at expansion time. -/
def resolveSegs (img : Image) (rec : Inode → List Nat → RunRes (Option Inode))
    (fuel : Nat) : List (List Nat) → Inode → RunRes (Option Inode)
  | [], cur => .ret (.ok (some cur))
  | elem :: rest, cur =>
    match cur.inodeType with
    | .error e => .ret (.error e)
    | .ok ty =>
      if ty ≠ .directory then
        .ret (.error (.invalidOperation "path traversal met non-directory"))
      else if elem.length = 0 ∨ elem = [46] then resolveSegs img rec fuel rest cur
      else if elem = [46, 46] then
        match cur.parentInode img.data with
        | .error e => .ret (.error e)
        | .ok par => resolveSegs img rec fuel rest par
      else
        match binarySearch img.data cur elem fuel with
        | none => .nofuel
        | some (.error e) => .ret (.error e)
        | some (.ok none) => .ret (.ok none)
        | some (.ok (some inew)) =>
          match inew.inodeType with
          | .error e => .ret (.error e)
          | .ok nty =>
            if nty = .symlink then
              match getLink inew img.data with
              | .error e => .ret (.error e)
              | .ok lp =>
                match rec cur lp with
                | .panics => .panics
                | .nofuel => .nofuel
                | .ret (.error e) => .ret (.error e)
                | .ret (.ok none) => .ret (.ok none)
                | .ret (.ok (some r)) => resolveSegs img rec fuel rest r
            else resolveSegs img rec fuel rest inew

/-- `fs::resolve_path`: depth-guarded path resolution.  The unguarded
`path[0]` access panics on an empty path (`RunRes.panics`). -/
def resolvePath (img : Image) (root : Inode) (path : List Nat) (count : Nat)
    (fuel : Nat) : RunRes (Option Inode) :=
  if h : count > LINK_LOOP_MAX then
    .ret (.error (.bounds "maximum symlink loop count encoutered"))
  else
    match path with
    | [] => .panics
    | p0 :: _ =>
      match (if p0 = 47 then img.rootInodeOf else .ok root) with
      | .error e => .ret (.error e)
      | .ok cur0 =>
        resolveSegs img (fun cur tgt => resolvePath img cur tgt (count + 1) fuel)
          fuel (path.splitOn 47) cur0
termination_by LINK_LOOP_MAX + 1 - count
decreasing_by
  simp only [LINK_LOOP_MAX] at h ⊢
  omega

/-- `CHACHA20_REKEY_PERIOD = 2^32` (crypto.rs). -/
def REKEY : Nat := 4294967296

/-- `CHACHA20_BUFFER_SIZE` (crypto.rs): the writer-side scratch buffer. -/
def CHACHA_BUF : Nat := 4096

/-- Big-endian 8-byte encoding (`u64::to_be_bytes`). -/
def be64b (x : Nat) : List Nat :=
  [x / 256 ^ 7 % 256, x / 256 ^ 6 % 256, x / 256 ^ 5 % 256, x / 256 ^ 4 % 256,
   x / 256 ^ 3 % 256, x / 256 ^ 2 % 256, x / 256 % 256, x % 256]

/-- `EncryptChaCha20::block_nonce`: the 12-byte nonce for the rekey
window containing absolute offset `pos` is the 4-byte nonce prefix
followed by the big-endian window index `pos / REKEY`. -/
def blockNonce (noncePre : List Nat) (pos : Nat) : List Nat :=
  noncePre ++ be64b (pos / REKEY)

/-- Seeking the ChaCha20 cipher to stream position `p` and XOR-applying
its keystream to a buffer (`try_seek` + `try_apply_keystream`); `ks` is
the abstract keystream of the `chacha20` crate under a fixed key, indexed
by nonce and stream position. -/
def applyKs (ks : List Nat → Nat → Nat) (nonce : List Nat) :
    Nat → List Nat → List Nat
  | _, [] => []
  | p, b :: rest => (b ^^^ ks nonce p) :: applyKs ks nonce (p + 1) rest

/-- The while-loop of `EncryptChaCha20::read_at`: split the raw bytes
read from the inner store into slices that stay inside one rekey window,
and decrypt each slice with that window's nonce after seeking to the
intra-window position. -/
def chachaReadLoop (ks : List Nat → Nat → Nat) (noncePre : List Nat)
    (off : Nat) (buf : List Nat) : List Nat :=
  if buf.length = 0 then []
  else
    let p := off % REKEY
    let l := min buf.length (REKEY - p)
    applyKs ks (blockNonce noncePre off) p (buf.take l) ++
      chachaReadLoop ks noncePre (off + l) (buf.drop l)
termination_by buf.length
decreasing_by
  simp only [List.length_drop]
  have hp : off % REKEY < REKEY := Nat.mod_lt _ (by simp [REKEY])
  omega

/-- `EncryptChaCha20::read_at` at absolute offset `off`, with the inner
store returning exactly the stored ciphertext bytes. -/
def chachaReadAt (ks : List Nat → Nat → Nat) (noncePre : List Nat)
    (off : Nat) (ct : List Nat) : List Nat :=
  chachaReadLoop ks noncePre off ct

/-- The while-loop of `EncryptChaCha20::write`: encrypt the caller's
buffer in chunks bounded by the scratch-buffer size and the current rekey
window, at logical position `off`; the memory-backed inner store accepts
every chunk in full. -/
def chachaWriteLoop (ks : List Nat → Nat → Nat) (noncePre : List Nat)
    (off : Nat) (buf : List Nat) : List Nat :=
  if buf.length = 0 then []
  else
    let p := off % REKEY
    let l := min buf.length (min CHACHA_BUF (REKEY - p))
    applyKs ks (blockNonce noncePre off) p (buf.take l) ++
      chachaWriteLoop ks noncePre (off + l) (buf.drop l)
termination_by buf.length
decreasing_by
  simp only [List.length_drop]
  have hp : off % REKEY < REKEY := Nat.mod_lt _ (by simp [REKEY])
  simp only [CHACHA_BUF]
  omega

/-- `EncryptChaCha20::write` of a buffer with the writer's logical
position at absolute offset `off`: the ciphertext bytes handed to the
inner store. -/
def chachaWrite (ks : List Nat → Nat → Nat) (noncePre : List Nat)
    (off : Nat) (buf : List Nat) : List Nat :=
  chachaWriteLoop ks noncePre off buf

/-- Pointwise characterisation of the cipher layer: the byte at absolute
offset `off + i` is XORed with the keystream byte of window
`(off + i) / REKEY` (via its nonce) at intra-window position
`(off + i) % REKEY`. -/
def cipherXor (ks : List Nat → Nat → Nat) (noncePre : List Nat) :
    Nat → List Nat → List Nat
  | _, [] => []
  | off, b :: rest =>
    (b ^^^ ks (blockNonce noncePre off) (off % REKEY)) ::
      cipherXor ks noncePre (off + 1) rest

/-- Serialization of an inode record (the writer's struct punning of
`disk::Inode` made explicit). -/
def serializeInode (parent off sz ty : Nat) : List Nat :=
  le64b parent ++ le64b off ++ le64b sz ++ [ty] ++ List.replicate 7 0

/-- Serialization of a dirent record. -/
def serializeDirent (d : Dirent) : List Nat :=
  le64b d.name ++ le64b d.inode

/-- Serialization of the header record (`write::write_header` with
compression `None`). -/
def serializeHeader (root enc : Nat) : List Nat :=
  MAGICb ++ le64b root ++ [VERSION_MAJOR, VERSION_MINOR, 0, enc] ++
    List.replicate 12 0

/-- Writer state: the bytes produced so far and the stream position
(`Seek + Write` over a memory-backed stream). -/
structure WState where
  data : List Nat
  pos : Nat
deriving DecidableEq, Repr

/-- Overwrite `bs` into `d` at position `p`, zero-filling any gap and
extending at the end (the semantics of a positioned write on a seekable
memory-backed stream). -/
def overwriteAt (d : List Nat) (p : Nat) (bs : List Nat) : List Nat :=
  d.take p ++ List.replicate (p - d.length) 0 ++ bs ++ d.drop (p + bs.length)

/-- `write_all` at the current position. -/
def wwrite (st : WState) (bs : List Nat) : WState :=
  ⟨overwriteAt st.data st.pos bs, st.pos + bs.length⟩

/-- `seek(SeekFrom::Start(p))`. -/
def wseek (st : WState) (p : Nat) : WState :=
  ⟨st.data, p⟩

/-- A source directory tree as enumerated from the host filesystem
(`fs::read_dir` with file-type discrimination): regular file contents,
symlink target bytes, or a directory of named children. -/
inductive FTree where
  | file : List Nat → FTree
  | symlink : List Nat → FTree
  | dir : List (List Nat × FTree) → FTree

/-- The ordering used by `paths.sort_by_key(|e| e.path())`: for siblings
of one directory, `PathBuf` ordering compares the final path component,
i.e. the raw name bytes (Unix `OsStr` ordering). -/
def entLe (a b : List Nat × FTree) : Prop := bytesCmp a.1 b.1 ≠ .gt

instance : DecidableRel entLe := fun a b => by
  unfold entLe
  infer_instance

/-- The writer's stable sort of the collected host directory entries
(`paths.sort_by_key(|e| e.path())`). -/
def sortEnts (l : List (List Nat × FTree)) : List (List Nat × FTree) :=
  List.insertionSort entLe l

/-- The back-patching loop at the end of `write_directory`: seek to each
child inode record and overwrite its `parent_inode` field with the
directory's inode position. -/
def backpatch (ds : List Dirent) (ipos : Nat) (st : WState) : WState :=
  ds.foldl (fun s d => wwrite (wseek s d.inode) (le64b ipos)) st

mutual

/-- `write::write_file` / `write_symlink` / `write_directory`, dispatched
on the host file type: emit payload (for directories: names and children
in sorted order, then the packed dirent table), then the inode record,
then for directories back-patch every child's `parent_inode` field with
this directory's inode position and restore the stream position.
Returns the inode record position and the final writer state. -/
def writeNode : FTree → WState → Nat × WState
  | .file data, st =>
    let off := st.pos
    let st1 := wwrite st data
    let ipos := st1.pos
    (ipos, wwrite st1 (serializeInode 0 off data.length 1))
  | .symlink tgt, st =>
    let off := st.pos
    let st1 := wwrite st tgt
    let ipos := st1.pos
    (ipos, wwrite st1 (serializeInode 0 off tgt.length 2))
  | .dir es, st =>
    let r := writeEntries (sortEnts es) st
    let payloadOff := r.2.pos
    let st2 := wwrite r.2 ((r.1.map serializeDirent).flatten)
    let ipos := st2.pos
    let st3 := wwrite st2 (serializeInode 0 payloadOff (r.1.length * 16) 0)
    let cur := st3.pos
    let st4 := backpatch r.1 ipos st3
    (ipos, wseek st4 cur)
termination_by t _ => sizeOf t
decreasing_by
  have hperm : (sortEnts es).Perm es := List.perm_insertionSort entLe es
  have hsz : ∀ (l l2 : List (List Nat × FTree)), l.Perm l2 → sizeOf l = sizeOf l2 := by
    intro l l2 hp
    induction hp with
    | nil => rfl
    | cons x _ ih => simp [ih]
    | swap x y l => simp; omega
    | trans _ _ ih1 ih2 => omega
  have := hsz _ _ hperm
  simp
  omega

/-- The per-entry loop of `write_directory`: write the NUL-terminated
name, dispatch on the child, and collect the dirent
`{name: name_pos, inode: child_inode_pos}` in emission order. -/
def writeEntries : List (List Nat × FTree) → WState → List Dirent × WState
  | [], st => ([], st)
  | (name, child) :: rest, st =>
    let namePos := st.pos
    let st1 := wwrite st (name ++ [0])
    let r1 := writeNode child st1
    let r2 := writeEntries rest r1.2
    (⟨namePos, r1.1⟩ :: r2.1, r2.2)
termination_by l _ => sizeOf l
decreasing_by
  all_goals simp
  all_goals omega

end

/-- `write::write_image` (with encryption `None`): reject a non-directory
root, skip the 32-byte header, write the tree, patch the root inode's
`parent_inode` with its own offset, rewind and emit the header. -/
def writeImage (t : FTree) : Except SqErr (List Nat) :=
  match t with
  | .dir _ =>
    let st1 := wseek ⟨[], 0⟩ 32
    let r := writeNode t st1
    let st3 := wwrite (wseek r.2 r.1) (le64b r.1)
    let st4 := wwrite (wseek st3 0) (serializeHeader r.1 0)
    .ok st4.data
  | _ => .error (.invalidOperation "root is not a directory")

mutual

/-- All directory nodes (their entry lists) of a source tree. -/
def allDirs : FTree → List (List (List Nat × FTree))
  | .file _ => []
  | .symlink _ => []
  | .dir es => es :: allDirsL es
termination_by t => sizeOf t
decreasing_by
  all_goals simp
  all_goals omega

/-- All directory nodes reachable from a list of named children. -/
def allDirsL : List (List Nat × FTree) → List (List (List Nat × FTree))
  | [] => []
  | (_, c) :: rest => allDirs c ++ allDirsL rest
termination_by l => sizeOf l
decreasing_by
  all_goals simp
  all_goals omega

end

/-- Names are unique within every directory of the tree (guaranteed for
host directory enumeration via `fs::read_dir`). -/
def UniqNames (t : FTree) : Prop :=
  ∀ es ∈ allDirs t, (es.map Prod.fst).Nodup

/-- Strict byte-string order. -/
def bytesLt (a b : List Nat) : Prop := bytesCmp a b = .lt

/-- Test fixture for the binary-search claim: the image written for a
single-entry root directory holding the file `"b"` with contents
`[1]`; its dirent table is sorted (trivially). -/
def imgB : List Nat :=
  MAGICb ++ le64b 83 ++ [0, 0, 0, 0] ++ List.replicate 12 0 ++
  [98, 0] ++ [1] ++ serializeInode 83 34 1 1 ++
  serializeDirent ⟨32, 35⟩ ++ serializeInode 83 67 16 0

/-- The root directory inode of `imgB` (one 16-byte dirent, table at
offset 67, inode record at offset 83). -/
def rootB : Inode := ⟨83, 67, 16, 0⟩

/-- Test fixture for the symlink-cycle claim: the tree with symlinks
`a → b` and `b → a` (spec scenario D). -/
def cycTree : FTree := .dir [([97], .symlink [98]), ([98], .symlink [97])]

/-- The image written for `cycTree`. -/
def cycImg : List Nat :=
  match writeImage cycTree with
  | .ok d => d
  | .error _ => []

/-- The open image handle over `cycImg`. -/
def cycImage : Image :=
  match openFile cycImg none none with
  | .ok i => i
  | .error _ => ⟨[], ⟨[], 0, 0, 0, 0, 0⟩⟩

/-- The root directory inode of `cycImg`. -/
def cycRoot : Inode :=
  match cycImage.rootInodeOf with
  | .ok i => i
  | .error _ => ⟨0, 0, 0, 0⟩

theorem le64_le64b (x : Nat) : le64 (le64b x) = x % U64 := by
  simp only [le64b, le64, U64]
  omega

theorem le64b_length (x : Nat) : (le64b x).length = 8 := by
  simp [le64b]

theorem readSlice_length (d : List Nat) (p k : Nat) (h : p + k ≤ d.length) :
    (readSlice d p k).length = k := by
  simp only [readSlice, List.length_take, List.length_drop]
  omega

theorem vecReadAt_length (img : List Nat) (bufLen off : Nat) :
    (vecReadAt img bufLen off).length = if off > img.length then 0
      else min bufLen (img.length - off) := by
  unfold vecReadAt readSlice
  split
  · simp
  · simp only [List.length_take, List.length_drop]
    omega

theorem readExactAt_zero (img : List Nat) (off : Nat) :
    readExactAt img 0 off = .ok [] := by
  unfold readExactAt
  rw [readExactGo.eq_def]
  simp

theorem readExactAt_ok (img : List Nat) :
    ∀ bufLen off, off + bufLen ≤ img.length →
    readExactAt img bufLen off = .ok (readSlice img off bufLen) := by
  intro bufLen
  induction bufLen using Nat.strong_induction_on with
  | _ bufLen ih =>
    intro off h
    unfold readExactAt at ih ⊢
    rw [readExactGo.eq_def]
    by_cases h0 : bufLen = 0
    · simp [h0, readSlice]
    · have hoff : ¬ off > img.length := by omega
      have hmin : min bufLen (img.length - off) = bufLen := by omega
      have hchunk : vecReadAt img bufLen off = readSlice img off bufLen := by
        unfold vecReadAt
        rw [if_neg hoff, hmin]
      have hlen : (vecReadAt img bufLen off).length = bufLen := by
        rw [vecReadAt_length, if_neg hoff, hmin]
      rw [if_neg h0, if_neg (by omega), hlen, Nat.sub_self]
      rw [show readExactGo img 0 (off + bufLen) = .ok [] from by
        rw [readExactGo.eq_def]; simp]
      simp [hchunk]

theorem readExactAt_err (img : List Nat) :
    ∀ bufLen off, bufLen ≠ 0 → img.length < off + bufLen →
    readExactAt img bufLen off = .error (.io "UnexpectedEof") := by
  intro bufLen
  induction bufLen using Nat.strong_induction_on with
  | _ bufLen ih =>
    intro off hb h
    unfold readExactAt at ih ⊢
    rw [readExactGo.eq_def]
    rw [if_neg hb]
    by_cases hc : (vecReadAt img bufLen off).length = 0
    · rw [if_pos hc]
    · rw [if_neg hc]
      have hlt : (vecReadAt img bufLen off).length ≤ bufLen := by
        rw [vecReadAt_length]
        split <;> omega
      have hpos : 0 < (vecReadAt img bufLen off).length := Nat.pos_of_ne_zero hc
      have hfull : (vecReadAt img bufLen off).length < bufLen := by
        rw [vecReadAt_length] at hpos ⊢
        by_cases ho : off > img.length
        · rw [if_pos ho] at hpos
          omega
        · rw [if_neg ho] at hpos ⊢
          omega
      have := ih (bufLen - (vecReadAt img bufLen off).length) (by omega)
        (off + (vecReadAt img bufLen off).length) (by omega) (by omega)
      rw [this]

theorem readExactAt_err_shape (img : List Nat) :
    ∀ bufLen off e, readExactAt img bufLen off = .error e →
    e = .io "UnexpectedEof" := by
  intro bufLen
  induction bufLen using Nat.strong_induction_on with
  | _ bufLen ih =>
    intro off e h
    unfold readExactAt at ih h
    rw [readExactGo.eq_def] at h
    by_cases h0 : bufLen = 0
    · simp [h0] at h
    · rw [if_neg h0] at h
      by_cases hc : (vecReadAt img bufLen off).length = 0
      · rw [if_pos hc] at h
        exact (Except.error.injEq _ _).mp h.symm |>.symm ▸ rfl
      · rw [if_neg hc] at h
        have hlt : (vecReadAt img bufLen off).length ≤ bufLen := by
          rw [vecReadAt_length]
          split <;> omega
        have hpos : 0 < (vecReadAt img bufLen off).length := Nat.pos_of_ne_zero hc
        revert h
        match hrec : readExactGo img (bufLen - (vecReadAt img bufLen off).length)
            (off + (vecReadAt img bufLen off).length) with
        | .error e2 =>
          intro h
          cases h
          exact ih _ (by omega) _ _ hrec
        | .ok rest =>
          intro h
          cases h

/-- C2: REFUTED (code bug).  The claim demands that every operation of
the read pipeline — including `resolve` on the empty path byte-string —
returns a typed error or succeeds, without panicking.  But
`fs::resolve_path` evaluates `path[0]` before any emptiness check, which
panics (index out of bounds) on the empty path for every image and every
starting directory; both `Directory::resolve("")` and `FS::resolve("")`
reach this line with depth 0. -/
theorem c2_resolve_empty_path_panics (img : Image) (root : Inode) (fuel : Nat) :
    resolvePath img root [] 0 fuel = .panics := by
  rw [resolvePath.eq_def]
  simp [LINK_LOOP_MAX]

/-- C1: REFUTED (code bug).  The claim (and the spec) demand a binary
search over the half-open interval `[0, number-of-entries)` with miss
reported as not-found and no dirent read at an index `≥` the entry
count.  The source instead runs `while min <= max` with `max`
initialised to the entry count and updates `max = mid - 1`, which
underflows at `mid = 0`.  On the image of a root directory with the
single entry `"b"` (table offset 67, one 16-byte dirent): looking up the
present name `"b"` succeeds, but looking up `"a"` (smaller than every
entry) wraps `max` to `2^64 - 1` and fails with a Bounds error from a
dirent read at index `2^63 - 1` instead of returning not-found (in a
debug build the `0 - 1` subtraction panics). -/
theorem c1_binary_search_misses_below_first_entry :
    binarySearch imgB rootB [98] 10 =
      some (.ok (some ⟨83, 34, 1, 1⟩)) ∧
    binarySearch imgB rootB [97] 10 =
      some (.error (.bounds "dirent pos is beyond the directory")) := by
  constructor <;>
    simp [binarySearch, binarySearchGo, Inode.readDirentAt, Inode.inodeType,
      InodeType.tryFrom, readDirent, readExactAt, readExactGo, vecReadAt, readSlice,
      decodeDirent, le64, le64b, Dirent.readName, readStr, readStrGo, bytesCmp,
      Dirent.readInodeOf, readInode, decodeInode, U64, imgB, rootB, serializeInode,
      serializeDirent, MAGICb, compare, compareOfLessAndEq]

/-- C5 counterexample: the claim as stated fails on a file inode whose
recorded payload extends past the end of the image.  For the inode
`{offset: 0, size: 5, type: File}` over the empty byte store, `read_at`
with a 3-byte buffer at offset 0 (inside the payload, so the claim
demands exactly 3 payload bytes) returns an unexpected-EOF I/O error,
and `read_exact_at` with `offset + len = 3 ≤ size = 5` (where the claim
demands success) also fails with unexpected EOF. -/
theorem c5_counterexample :
    Inode.readAt ⟨0, 0, 5, 1⟩ 3 0 [] = .error (.io "UnexpectedEof") ∧
    Inode.readExactAtI ⟨0, 0, 5, 1⟩ 3 0 [] = .error (.io "UnexpectedEof") := by
  constructor <;>
    simp [Inode.readAt, Inode.readExactAtI, readExactAt, readExactGo, vecReadAt,
      readSlice, U64]

/-- C5 amended: for a file inode whose payload lies inside the image
(and image length below `2^64`), `read_at` returns 0 bytes at or beyond
`size`, returns exactly `min(buffer length, size − offset)` payload bytes
inside the payload, and — when `offset + buffer length` does not overflow
`u64` — `read_exact_at` fails with unexpected EOF exactly when
`offset + buffer length` exceeds `size`. -/
theorem c5_read_clamped (i : Inode) (img : List Nat)
    (hpay : i.offset + i.size ≤ img.length) (himg : img.length < U64) :
    (∀ bufLen off, i.size ≤ off → i.readAt bufLen off img = .ok []) ∧
    (∀ bufLen off, off < i.size →
      i.readAt bufLen off img =
        .ok (readSlice img (i.offset + off) (min bufLen (i.size - off)))) ∧
    (∀ bufLen off, off + bufLen < U64 →
      (i.size < off + bufLen →
        i.readExactAtI bufLen off img = .error (.io "UnexpectedEof")) ∧
      (off + bufLen ≤ i.size →
        i.readExactAtI bufLen off img =
          .ok (readSlice img (i.offset + off) bufLen))) := by
  refine ⟨?_, ?_, ?_⟩
  · intro bufLen off hoff
    unfold Inode.readAt
    by_cases hgt : off > i.size
    · rw [if_pos hgt]
    · rw [if_neg hgt]
      have hsz : min bufLen (i.size - off) = 0 := by omega
      simp only [hsz, readExactAt_zero]
  · intro bufLen off hoff
    unfold Inode.readAt
    rw [if_neg (by omega)]
    have hmod : (i.offset + off) % U64 = i.offset + off :=
      Nat.mod_eq_of_lt (by omega)
    simp only [hmod, readExactAt_ok img (min bufLen (i.size - off)) (i.offset + off)
      (by omega)]
  · intro bufLen off hov
    have hmod : (off + bufLen) % U64 = off + bufLen := Nat.mod_eq_of_lt hov
    constructor
    · intro hgt
      unfold Inode.readExactAtI
      rw [hmod, if_pos (by omega)]
    · intro hle
      unfold Inode.readExactAtI
      rw [hmod, if_neg (by omega)]
      have hmod2 : (i.offset + off) % U64 = i.offset + off :=
        Nat.mod_eq_of_lt (by omega)
      rw [hmod2, readExactAt_ok img bufLen (i.offset + off) (by omega)]

/-- C5 amended, witnessed at the 3-byte image `[9, 8, 7]` with the file
inode `{offset: 0, size: 3}`: reading 2 bytes at offset 1 yields the
payload bytes `[8, 7]`. -/
theorem c5_read_clamped_witness :
    ((0 : Nat) + 3 ≤ ([9, 8, 7] : List Nat).length ∧
      ([9, 8, 7] : List Nat).length < U64) ∧
    Inode.readAt ⟨0, 0, 3, 1⟩ 2 1 [9, 8, 7] = .ok [8, 7] := by
  refine ⟨⟨by decide, by decide⟩, ?_⟩
  have h := (c5_read_clamped ⟨0, 0, 3, 1⟩ [9, 8, 7] (by decide) (by decide)).2.1 2 1
    (by decide)
  simpa [readSlice] using h

/-- C7 counterexample: the claim promises that for every symlink inode
with recorded size at most `LINK_TARGET_MAX`, `get_link` returns the
`size` target bytes.  The symlink inode `{offset: 0, size: 5}` over the
empty store has size 5 ≤ 1024, yet `get_link` returns an I/O error
(unexpected EOF from the truncated payload), not the target bytes. -/
theorem c7_counterexample :
    (5 : Nat) ≤ LINK_TARGET_MAX ∧
    getLink ⟨0, 0, 5, 2⟩ [] = .error (.io "UnexpectedEof") := by
  constructor
  · decide
  · simp [getLink, Inode.readAt, readExactAt, readExactGo, vecReadAt, readSlice,
      LINK_TARGET_MAX, U64]

/-- C7 amended: `get_link` fails with a Bounds error exactly when the
symlink inode's recorded size exceeds `LINK_TARGET_MAX`; for a size
within the bound whose payload lies inside the image it returns a
buffer of exactly `size` bytes filled from the payload, and in no other
case does it produce a Bounds error (a truncated store surfaces as an
I/O error instead). -/
theorem c7_get_link (i : Inode) (img : List Nat) :
    (LINK_TARGET_MAX < i.size →
      getLink i img = .error (.bounds "link target too long")) ∧
    (i.size ≤ LINK_TARGET_MAX → ∀ s, getLink i img ≠ .error (.bounds s)) ∧
    (i.size ≤ LINK_TARGET_MAX → i.offset + i.size ≤ img.length →
      img.length < U64 →
      getLink i img = .ok (readSlice img i.offset i.size) ∧
      (readSlice img i.offset i.size).length = i.size) := by
  refine ⟨?_, ?_, ?_⟩
  · intro hgt
    unfold getLink
    rw [if_pos (by omega)]
  · intro hle s
    unfold getLink
    rw [if_neg (by omega)]
    unfold Inode.readAt
    rw [if_neg (by omega)]
    cases hre : readExactAt img (min i.size (i.size - 0)) ((i.offset + 0) % U64) with
    | error e =>
      have hio := readExactAt_err_shape img _ _ _ hre
      subst hio
      simp only [hre]
      intro hcon
      cases hcon
    | ok bs =>
      simp only [hre]
      intro hcon
      cases hcon
  · intro hle hpay himg
    unfold getLink
    rw [if_neg (by omega)]
    unfold Inode.readAt
    rw [if_neg (by omega)]
    have hsz : min i.size (i.size - 0) = i.size := by omega
    have hmod : (i.offset + 0) % U64 = i.offset := by
      rw [Nat.add_zero]
      exact Nat.mod_eq_of_lt (by omega)
    constructor
    · simp only [hsz, hmod, readExactAt_ok img i.size i.offset (by omega)]
    · exact readSlice_length img i.offset i.size (by omega)

/-- C7 witnessed at the image `[0, 120, 121]`: the symlink inode
`{offset: 1, size: 2}` yields target `[120, 121]`, and an inode with
recorded size 2000 > 1024 fails with the Bounds error. -/
theorem c7_get_link_witness :
    (LINK_TARGET_MAX < 2000 ∧
      getLink ⟨0, 0, 2000, 2⟩ [] = .error (.bounds "link target too long")) ∧
    ((2 : Nat) ≤ LINK_TARGET_MAX ∧
      getLink ⟨0, 1, 2, 2⟩ [0, 120, 121] = .ok [120, 121]) := by
  refine ⟨⟨by decide, (c7_get_link ⟨0, 0, 2000, 2⟩ []).1 (by decide)⟩,
    ⟨by decide, ?_⟩⟩
  have h := ((c7_get_link ⟨0, 1, 2, 2⟩ [0, 120, 121]).2.2 (by decide) (by decide)
    (by decide)).1
  simpa [readSlice] using h

/-- C10: `Directory::get` returns `Ok(None)` at every position at or
beyond `len() = size / 16` (for every byte store, i.e. without touching
the image), returns `Ok(Some _)` only strictly below `len()`, and
driving the `ReadDir` iterator from position `pos` yields at most
`len() - pos` items however much fuel it is given. -/
theorem c10_directory_get (img : List Nat) (i : Inode) :
    (∀ pos, dirLen i ≤ pos → dirGet img i pos = .ok none) ∧
    (∀ pos d, dirGet img i pos = .ok (some d) → pos < dirLen i) ∧
    (∀ fuel pos, (readDirRun img i pos fuel).length ≤ dirLen i - pos) := by
  have h1 : ∀ pos, dirLen i ≤ pos → dirGet img i pos = .ok none := by
    intro pos hge
    unfold dirGet
    rw [if_pos (by omega)]
  refine ⟨h1, ?_, ?_⟩
  · intro pos d hok
    by_contra hge
    rw [h1 pos (by omega)] at hok
    cases hok
  · intro fuel
    induction fuel with
    | zero =>
      intro pos
      simp [readDirRun]
    | succ n ih =>
      intro pos
      rw [readDirRun]
      cases hnext : readDirNext img i pos with
      | none => simp
      | some it =>
        have hlt : pos < dirLen i := by
          by_contra hge
          rw [readDirNext, h1 pos (by omega)] at hnext
          cases hnext
        have := ih (pos + 1)
        simp only [List.length_cons]
        omega

/-- C10 witnessed: over the 16-byte zero image, the directory inode
`{offset: 0, size: 32}` has `len() = 2`; `get 5` is `Ok(None)`, `get 0`
reads the zero dirent (hence position 0 is below `len()`), and a run of
the iterator yields at most 2 items. -/
theorem c10_directory_get_witness :
    dirGet (List.replicate 16 0) ⟨0, 0, 32, 0⟩ 5 = .ok none ∧
    (dirGet (List.replicate 16 0) ⟨0, 0, 32, 0⟩ 0 = .ok (some ⟨0, 0⟩) ∧
      0 < dirLen ⟨0, 0, 32, 0⟩) ∧
    (readDirRun (List.replicate 16 0) ⟨0, 0, 32, 0⟩ 0 9).length ≤
      dirLen ⟨0, 0, 32, 0⟩ - 0 := by
  have hget : dirGet (List.replicate 16 0) ⟨0, 0, 32, 0⟩ 0 = .ok (some ⟨0, 0⟩) := by
    simp [dirGet, dirLen, Inode.readDirentAt, Inode.inodeType, InodeType.tryFrom,
      readDirent, readExactAt, readExactGo, vecReadAt, readSlice, decodeDirent,
      le64, U64, List.replicate]
  refine ⟨(c10_directory_get (List.replicate 16 0) ⟨0, 0, 32, 0⟩).1 5 (by decide),
    ⟨hget, (c10_directory_get (List.replicate 16 0) ⟨0, 0, 32, 0⟩).2.1 0 ⟨0, 0⟩ hget⟩,
    (c10_directory_get (List.replicate 16 0) ⟨0, 0, 32, 0⟩).2.2 9 0⟩

/-- C4 counterexample: the claim's "fails with a Format error exactly
when … the compression_type byte is an undefined discriminant" is false,
because `open_file` validates the compression byte only after the
encryption stage.  The 32-byte header with valid magic and versions,
compression_type 42 (undefined — its decode is a Format error, first
conjunct) and encryption_type 1, opened without a key, fails with
Crypto("No provided key"), not with a Format error (second conjunct). -/
theorem c4_counterexample :
    CompressionType.tryFrom 42 = .error (.format "CompressionType") ∧
    openFile (MAGICb ++ le64b 0 ++ [0, 0, 42, 1] ++ List.replicate 12 0)
      none none = .error (.crypto "No provided key") := by
  constructor
  · rfl
  · simp [openFile, readHeader, decodeHeader, readExactAt, readExactGo, vecReadAt,
      readSlice, le64, le64b, MAGICb, EncryptionType.tryFrom, VERSION_MAJOR,
      VERSION_MINOR, U64]

/-- C4 amended: full characterisation of `open_file` on an image whose
header read succeeds.  Magic and versions are validated first (Format),
then the encryption discriminant (Format if undefined); for ChaCha20 the
key must be present, the nonce must be present, and the key material
must be exactly 36 bytes (Crypto otherwise); only after the encryption
stage succeeds is the compression discriminant validated (Format if
undefined); otherwise an Image handle is returned. -/
theorem c4_open_characterisation (img : List Nat) (key nonce : Option (List Nat))
    (H : Header) (hH : readHeader img = .ok H) :
    (H.magic ≠ MAGICb → openFile img key nonce = .error (.format "Wrong magic")) ∧
    (H.magic = MAGICb → H.version_major ≠ 0 →
      openFile img key nonce = .error (.format "Unsupported major version")) ∧
    (H.magic = MAGICb → H.version_major = 0 → H.version_minor ≠ 0 →
      openFile img key nonce = .error (.format "Unsupported minor version")) ∧
    (H.magic = MAGICb → H.version_major = 0 → H.version_minor = 0 →
      H.encryption_ty ≠ 0 → H.encryption_ty ≠ 1 →
      openFile img key nonce = .error (.format "EncryptionType")) ∧
    (H.magic = MAGICb → H.version_major = 0 → H.version_minor = 0 →
      H.encryption_ty = 1 → key = none →
      openFile img key nonce = .error (.crypto "No provided key")) ∧
    (H.magic = MAGICb → H.version_major = 0 → H.version_minor = 0 →
      H.encryption_ty = 1 → ∀ k, key = some k → nonce = none →
      openFile img key nonce = .error (.crypto "No provided nonce")) ∧
    (H.magic = MAGICb → H.version_major = 0 → H.version_minor = 0 →
      H.encryption_ty = 1 → ∀ k n, key = some k → nonce = some n →
      k.length ≠ 36 →
      openFile img key nonce = .error (.crypto "Invalid key length")) ∧
    (H.magic = MAGICb → H.version_major = 0 → H.version_minor = 0 →
      H.encryption_ty = 0 → H.compression_ty ≠ 0 →
      openFile img key nonce = .error (.format "CompressionType")) ∧
    (H.magic = MAGICb → H.version_major = 0 → H.version_minor = 0 →
      H.encryption_ty = 0 → H.compression_ty = 0 →
      openFile img key nonce = .ok ⟨img, H⟩) ∧
    (H.magic = MAGICb → H.version_major = 0 → H.version_minor = 0 →
      H.encryption_ty = 1 → ∀ k n, key = some k → nonce = some n →
      k.length = 36 →
      (H.compression_ty ≠ 0 →
        openFile img key nonce = .error (.format "CompressionType")) ∧
      (H.compression_ty = 0 → openFile img key nonce = .ok ⟨img, H⟩)) := by
  refine ⟨?_, ?_, ?_, ?_, ?_, ?_, ?_, ?_, ?_, ?_⟩
  · intro h1
    simp [openFile, hH, h1]
  · intro h1 h2
    simp [openFile, hH, h1, h2, VERSION_MAJOR]
  · intro h1 h2 h3
    simp [openFile, hH, h1, h2, h3, VERSION_MAJOR, VERSION_MINOR]
  · intro h1 h2 h3 h4 h5
    simp [openFile, hH, h1, h2, h3, VERSION_MAJOR, VERSION_MINOR,
      EncryptionType.tryFrom, h4, h5]
  · intro h1 h2 h3 h4 h5
    simp [openFile, hH, h1, h2, h3, h4, h5, VERSION_MAJOR, VERSION_MINOR,
      EncryptionType.tryFrom]
  · intro h1 h2 h3 h4 k h5 h6
    simp [openFile, hH, h1, h2, h3, h4, h5, h6, VERSION_MAJOR, VERSION_MINOR,
      EncryptionType.tryFrom]
  · intro h1 h2 h3 h4 k n h5 h6 h7
    simp [openFile, hH, h1, h2, h3, h4, h5, h6, h7, VERSION_MAJOR, VERSION_MINOR,
      EncryptionType.tryFrom, chachaNew]
  · intro h1 h2 h3 h4 h5
    simp [openFile, hH, h1, h2, h3, h4, h5, VERSION_MAJOR, VERSION_MINOR,
      EncryptionType.tryFrom, CompressionType.tryFrom]
  · intro h1 h2 h3 h4 h5
    simp [openFile, hH, h1, h2, h3, h4, h5, VERSION_MAJOR, VERSION_MINOR,
      EncryptionType.tryFrom, CompressionType.tryFrom]
  · intro h1 h2 h3 h4 k n h5 h6 h7
    constructor
    · intro h8
      simp [openFile, hH, h1, h2, h3, h4, h5, h6, h7, h8, VERSION_MAJOR,
        VERSION_MINOR, EncryptionType.tryFrom, CompressionType.tryFrom, chachaNew]
    · intro h8
      simp [openFile, hH, h1, h2, h3, h4, h5, h6, h7, h8, VERSION_MAJOR,
        VERSION_MINOR, EncryptionType.tryFrom, CompressionType.tryFrom, chachaNew]

/-- C4 amended, witnessed: the all-zero header with valid magic opens to
an Image handle without key material. -/
theorem c4_open_characterisation_witness :
    readHeader (serializeHeader 0 0) = .ok ⟨MAGICb, 0, 0, 0, 0, 0⟩ ∧
    openFile (serializeHeader 0 0) none none =
      .ok ⟨serializeHeader 0 0, ⟨MAGICb, 0, 0, 0, 0, 0⟩⟩ := by
  have hH : readHeader (serializeHeader 0 0) = .ok ⟨MAGICb, 0, 0, 0, 0, 0⟩ := by
    simp [readHeader, serializeHeader, readExactAt, readExactGo, vecReadAt,
      readSlice, decodeHeader, le64, le64b, MAGICb, VERSION_MAJOR, VERSION_MINOR]
  exact ⟨hH, (c4_open_characterisation (serializeHeader 0 0) none none
    ⟨MAGICb, 0, 0, 0, 0, 0⟩ hH).2.2.2.2.2.2.2.2.1 rfl rfl rfl rfl rfl⟩

theorem cipherXor_append (ks : List Nat → Nat → Nat) (pre : List Nat) :
    ∀ (a b : List Nat) (off : Nat),
    cipherXor ks pre off (a ++ b) =
      cipherXor ks pre off a ++ cipherXor ks pre (off + a.length) b := by
  intro a
  induction a with
  | nil => simp [cipherXor]
  | cons x xs ih =>
    intro b off
    simp only [List.cons_append, cipherXor, List.length_cons, List.append_eq, ih]
    rw [show off + 1 + xs.length = off + (xs.length + 1) from by omega]

theorem applyKs_eq_cipherXor (ks : List Nat → Nat → Nat) (pre : List Nat) :
    ∀ (c : List Nat) (off : Nat), off % REKEY + c.length ≤ REKEY →
    applyKs ks (blockNonce pre off) (off % REKEY) c = cipherXor ks pre off c := by
  intro c
  induction c with
  | nil =>
    intro off _
    rfl
  | cons b r ih =>
    intro off hwin
    simp only [applyKs, cipherXor, List.cons.injEq, true_and]
    cases r with
    | nil => rfl
    | cons b2 r2 =>
      have hlt : off % REKEY + 1 < REKEY := by
        simp only [List.length_cons] at hwin
        omega
      have h1 : (off + 1) % REKEY = off % REKEY + 1 := by
        simp only [REKEY] at hlt ⊢
        omega
      have h2 : (off + 1) / REKEY = off / REKEY := by
        simp only [REKEY] at hlt ⊢
        omega
      have h3 : blockNonce pre (off + 1) = blockNonce pre off := by
        unfold blockNonce
        rw [h2]
      have h4 : (off + 1) % REKEY + (b2 :: r2).length ≤ REKEY := by
        simp only [List.length_cons] at hwin ⊢
        omega
      have := ih (off + 1) h4
      rw [h3, h1] at this
      exact this

theorem chachaReadLoop_eq_cipherXor (ks : List Nat → Nat → Nat) (pre : List Nat) :
    ∀ (n : Nat) (buf : List Nat), buf.length ≤ n → ∀ off,
    chachaReadLoop ks pre off buf = cipherXor ks pre off buf := by
  intro n
  induction n with
  | zero =>
    intro buf hb off
    have : buf = [] := List.eq_nil_of_length_eq_zero (by omega)
    subst this
    rw [chachaReadLoop.eq_def]
    simp [cipherXor]
  | succ m ih =>
    intro buf hb off
    rw [chachaReadLoop.eq_def]
    by_cases h0 : buf.length = 0
    · have : buf = [] := List.eq_nil_of_length_eq_zero h0
      subst this
      simp [cipherXor]
    · rw [if_neg h0]
      simp only []
      have hp : off % REKEY < REKEY := Nat.mod_lt _ (by simp [REKEY])
      have hl1 : 1 ≤ min buf.length (REKEY - off % REKEY) := by omega
      have htk : (buf.take (min buf.length (REKEY - off % REKEY))).length =
          min buf.length (REKEY - off % REKEY) := by
        simp only [List.length_take]
        omega
      have hwin : off % REKEY +
          (buf.take (min buf.length (REKEY - off % REKEY))).length ≤ REKEY := by
        rw [htk]
        omega
      rw [applyKs_eq_cipherXor ks pre _ off hwin]
      rw [ih (buf.drop (min buf.length (REKEY - off % REKEY)))
        (by simp only [List.length_drop]; omega) _]
      rw [show off + min buf.length (REKEY - off % REKEY) = off +
          (buf.take (min buf.length (REKEY - off % REKEY))).length from by rw [htk]]
      rw [← cipherXor_append ks pre]
      rw [List.take_append_drop]

theorem chachaWriteLoop_eq_cipherXor (ks : List Nat → Nat → Nat) (pre : List Nat) :
    ∀ (n : Nat) (buf : List Nat), buf.length ≤ n → ∀ off,
    chachaWriteLoop ks pre off buf = cipherXor ks pre off buf := by
  intro n
  induction n with
  | zero =>
    intro buf hb off
    have : buf = [] := List.eq_nil_of_length_eq_zero (by omega)
    subst this
    rw [chachaWriteLoop.eq_def]
    simp [cipherXor]
  | succ m ih =>
    intro buf hb off
    rw [chachaWriteLoop.eq_def]
    by_cases h0 : buf.length = 0
    · have : buf = [] := List.eq_nil_of_length_eq_zero h0
      subst this
      simp [cipherXor]
    · rw [if_neg h0]
      simp only []
      have hp : off % REKEY < REKEY := Nat.mod_lt _ (by simp [REKEY])
      have hbuf4 : 1 ≤ min CHACHA_BUF (REKEY - off % REKEY) := by
        simp only [CHACHA_BUF]
        omega
      have hl1 : 1 ≤ min buf.length (min CHACHA_BUF (REKEY - off % REKEY)) := by
        omega
      have htk : (buf.take (min buf.length (min CHACHA_BUF
          (REKEY - off % REKEY)))).length =
          min buf.length (min CHACHA_BUF (REKEY - off % REKEY)) := by
        simp only [List.length_take]
        omega
      have hwin : off % REKEY + (buf.take (min buf.length (min CHACHA_BUF
          (REKEY - off % REKEY)))).length ≤ REKEY := by
        rw [htk]
        simp only [CHACHA_BUF] at *
        omega
      rw [applyKs_eq_cipherXor ks pre _ off hwin]
      rw [ih (buf.drop (min buf.length (min CHACHA_BUF (REKEY - off % REKEY))))
        (by simp only [List.length_drop]; omega) _]
      rw [show off + min buf.length (min CHACHA_BUF (REKEY - off % REKEY)) = off +
          (buf.take (min buf.length (min CHACHA_BUF
            (REKEY - off % REKEY)))).length from by rw [htk]]
      rw [← cipherXor_append ks pre]
      rw [List.take_append_drop]

theorem cipherXor_involutive (ks : List Nat → Nat → Nat) (pre : List Nat) :
    ∀ (l : List Nat) (off : Nat),
    cipherXor ks pre off (cipherXor ks pre off l) = l := by
  intro l
  induction l with
  | nil => intro off; rfl
  | cons b r ih =>
    intro off
    simp only [cipherXor, List.cons.injEq]
    constructor
    · rw [Nat.xor_assoc, Nat.xor_self, Nat.xor_zero]
    · exact ih (off + 1)

/-- C3: for the ChaCha20 cipher layer (with its fixed key material
abstracted as the keystream function `ks` and nonce prefix `noncePre`),
encryption and decryption are inverses at every absolute offset: writing
a buffer at offset `off` through `EncryptChaCha20::write` and reading
the same range back through `EncryptChaCha20::read_at` yields the
original plaintext — including across `2^32`-byte rekey-window
boundaries, since both loops derive the nonce as
`nonce_prefix ∥ be64(off / 2^32)` and seek the keystream to
`off % 2^32`. -/
theorem c3_cipher_roundtrip (ks : List Nat → Nat → Nat) (noncePre : List Nat)
    (off : Nat) (buf : List Nat) (hlen : buf.length ≤ 1048576) :
    chachaReadAt ks noncePre off (chachaWrite ks noncePre off buf) = buf := by
  unfold chachaReadAt chachaWrite
  rw [chachaWriteLoop_eq_cipherXor ks noncePre buf.length buf le_rfl off]
  rw [chachaReadLoop_eq_cipherXor ks noncePre (cipherXor ks noncePre off buf).length
    _ le_rfl off]
  exact cipherXor_involutive ks noncePre buf off

/-- C3 witnessed at offset `2^32 - 1`, where the 3-byte buffer straddles
a rekey-window boundary, with a concrete keystream function. -/
theorem c3_cipher_roundtrip_witness :
    ([1, 2, 3] : List Nat).length ≤ 1048576 ∧
    chachaReadAt (fun nonce p => (nonce.headD 0 + p) % 256) [7, 7, 7, 7]
      4294967295
      (chachaWrite (fun nonce p => (nonce.headD 0 + p) % 256) [7, 7, 7, 7]
        4294967295 [1, 2, 3]) = [1, 2, 3] :=
  ⟨by decide, c3_cipher_roundtrip (fun nonce p => (nonce.headD 0 + p) % 256)
    [7, 7, 7, 7] 4294967295 [1, 2, 3] (by decide)⟩

theorem resolvePath_depth_guard (img : Image) (root : Inode) (path : List Nat)
    (count fuel : Nat) (h : LINK_LOOP_MAX < count) :
    resolvePath img root path count fuel =
      .ret (.error (.bounds "maximum symlink loop count encoutered")) := by
  rw [resolvePath.eq_def, dif_pos h]

set_option maxRecDepth 8000 in
set_option maxHeartbeats 2000000 in
theorem cycStepA (k : Nat) (hk : k ≤ 100) (e : SqErr)
    (h : resolvePath cycImage cycRoot [98] (k + 1) 1000 = .ret (.error e)) :
    resolvePath cycImage cycRoot [97] k 1000 = .ret (.error e) := by
  rw [resolvePath.eq_def]
  rw [dif_neg (by simp only [LINK_LOOP_MAX]; omega)]
  simp [resolveSegs, binarySearch, binarySearchGo, Inode.readDirentAt,
    Inode.inodeType, InodeType.tryFrom, readDirent, readExactAt, readExactGo,
    vecReadAt, readSlice, decodeDirent, le64, le64b, Dirent.readName, readStr,
    readStrGo, bytesCmp, Dirent.readInodeOf, readInode, decodeInode, U64,
    cycImage, cycImg, cycTree, writeImage, writeNode, writeEntries, sortEnts,
    entLe, wwrite, wseek, overwriteAt, backpatch, serializeInode, serializeDirent,
    serializeHeader, MAGICb, openFile, readHeader, decodeHeader, cycRoot,
    Image.rootInodeOf, getLink, Inode.readAt, Inode.parentInode, dirLen,
    LINK_TARGET_MAX, compare, compareOfLessAndEq, EncryptionType.tryFrom,
    CompressionType.tryFrom, VERSION_MAJOR, VERSION_MINOR, List.insertionSort,
    List.orderedInsert] at h ⊢
  rw [h]

set_option maxRecDepth 8000 in
set_option maxHeartbeats 2000000 in
theorem cycStepB (k : Nat) (hk : k ≤ 100) (e : SqErr)
    (h : resolvePath cycImage cycRoot [97] (k + 1) 1000 = .ret (.error e)) :
    resolvePath cycImage cycRoot [98] k 1000 = .ret (.error e) := by
  rw [resolvePath.eq_def]
  rw [dif_neg (by simp only [LINK_LOOP_MAX]; omega)]
  simp [resolveSegs, binarySearch, binarySearchGo, Inode.readDirentAt,
    Inode.inodeType, InodeType.tryFrom, readDirent, readExactAt, readExactGo,
    vecReadAt, readSlice, decodeDirent, le64, le64b, Dirent.readName, readStr,
    readStrGo, bytesCmp, Dirent.readInodeOf, readInode, decodeInode, U64,
    cycImage, cycImg, cycTree, writeImage, writeNode, writeEntries, sortEnts,
    entLe, wwrite, wseek, overwriteAt, backpatch, serializeInode, serializeDirent,
    serializeHeader, MAGICb, openFile, readHeader, decodeHeader, cycRoot,
    Image.rootInodeOf, getLink, Inode.readAt, Inode.parentInode, dirLen,
    LINK_TARGET_MAX, compare, compareOfLessAndEq, EncryptionType.tryFrom,
    CompressionType.tryFrom, VERSION_MAJOR, VERSION_MINOR, List.insertionSort,
    List.orderedInsert] at h ⊢
  rw [h]

theorem cycChain : ∀ n k, 101 ≤ k + n →
    resolvePath cycImage cycRoot [97] k 1000 =
      .ret (.error (.bounds "maximum symlink loop count encoutered")) ∧
    resolvePath cycImage cycRoot [98] k 1000 =
      .ret (.error (.bounds "maximum symlink loop count encoutered")) := by
  intro n
  induction n with
  | zero =>
    intro k hk
    constructor <;>
      exact resolvePath_depth_guard _ _ _ _ _ (by simp only [LINK_LOOP_MAX]; omega)
  | succ m ih =>
    intro k hk
    by_cases hk100 : k ≤ 100
    · exact ⟨cycStepA k hk100 _ (ih (k + 1) (by omega)).2,
        cycStepB k hk100 _ (ih (k + 1) (by omega)).1⟩
    · constructor <;>
        exact resolvePath_depth_guard _ _ _ _ _ (by simp only [LINK_LOOP_MAX]; omega)

/-- C6: path resolution always terminates (the model is a total
function), the depth counter of `resolve_path` increases by one on every
symlink expansion (the recursive call is at `count + 1`, as exhibited by
the per-expansion lemmas on the cyclic image), any call whose depth
exceeds `LINK_LOOP_MAX = 100` returns the Bounds error immediately, and
on the cyclic image `a → b`, `b → a` written by the writer (spec
scenario D), resolving `"a"` from the root returns the Bounds error
rather than recursing forever. -/
theorem c6_symlink_loop_bounded :
    (∀ (img : Image) (root : Inode) (path : List Nat) (count fuel : Nat),
      LINK_LOOP_MAX < count →
      resolvePath img root path count fuel =
        .ret (.error (.bounds "maximum symlink loop count encoutered"))) ∧
    resolvePath cycImage cycRoot [97] 0 1000 =
      .ret (.error (.bounds "maximum symlink loop count encoutered")) :=
  ⟨fun img root path count fuel h => resolvePath_depth_guard img root path count fuel h,
    (cycChain 101 0 (by omega)).1⟩

/-- C6 witnessed: a call at depth 101 > `LINK_LOOP_MAX` returns the
Bounds error at once. -/
theorem c6_symlink_loop_bounded_witness :
    LINK_LOOP_MAX < 101 ∧
    resolvePath cycImage cycRoot [99] 101 5 =
      .ret (.error (.bounds "maximum symlink loop count encoutered")) :=
  ⟨by decide, c6_symlink_loop_bounded.1 cycImage cycRoot [99] 101 5 (by decide)⟩

theorem overwriteAt_split (d : List Nat) (p : Nat) (bs : List Nat) :
    overwriteAt d p bs =
      (d.take p ++ List.replicate (p - d.length) 0) ++ bs ++ d.drop (p + bs.length) := by
  simp [overwriteAt]

theorem overwriteAt_head_length (d : List Nat) (p : Nat) :
    (d.take p ++ List.replicate (p - d.length) 0).length = p ⊔ p ⊓ d.length := by
  simp only [List.length_append, List.length_take, List.length_replicate]
  omega

theorem overwriteAt_length (d : List Nat) (p : Nat) (bs : List Nat) :
    (overwriteAt d p bs).length = max d.length (p + bs.length) := by
  simp only [overwriteAt, List.length_append, List.length_take,
    List.length_replicate, List.length_drop]
  omega

theorem readSlice_append_left (A B : List Nat) (q k : Nat) (h : q + k ≤ A.length) :
    readSlice (A ++ B) q k = readSlice A q k := by
  simp only [readSlice, List.drop_append_eq_append_drop]
  rw [List.take_append_eq_append_take]
  have h1 : (A.drop q).length = A.length - q := List.length_drop q A
  rw [show q - A.length = 0 from by omega]
  rw [show k - (A.drop q).length = 0 from by omega]
  simp

theorem readSlice_take (d : List Nat) (p q k : Nat) (h : q + k ≤ p) :
    readSlice (d.take p) q k = readSlice d q k := by
  simp only [readSlice, List.drop_take]
  rw [List.take_take]
  rw [show min k (p - q) = k from by omega]

theorem readSlice_overwrite_left (d : List Nat) (p : Nat) (bs : List Nat)
    (q k : Nat) (hp : q + k ≤ p) (hd : q + k ≤ d.length) :
    readSlice (overwriteAt d p bs) q k = readSlice d q k := by
  rw [overwriteAt_split]
  rw [show (d.take p ++ List.replicate (p - d.length) 0) ++ bs ++ d.drop (p + bs.length) =
    d.take p ++ (List.replicate (p - d.length) 0 ++ (bs ++ d.drop (p + bs.length)))
    from by simp]
  rw [readSlice_append_left _ _ q k (by simp only [List.length_take]; omega)]
  exact readSlice_take d p q k hp

theorem readSlice_drop_part (A B : List Nat) (q k : Nat) (h : A.length ≤ q) :
    readSlice (A ++ B) q k = readSlice B (q - A.length) k := by
  simp only [readSlice, List.drop_append_eq_append_drop]
  rw [show A.drop q = [] from List.drop_eq_nil_of_le h]
  simp

theorem readSlice_overwrite_right (d : List Nat) (p : Nat) (bs : List Nat)
    (q k : Nat) (hq : p + bs.length ≤ q) :
    readSlice (overwriteAt d p bs) q k = readSlice d q k := by
  rw [overwriteAt_split]
  rw [show (d.take p ++ List.replicate (p - d.length) 0) ++ bs ++ d.drop (p + bs.length) =
    ((d.take p ++ List.replicate (p - d.length) 0) ++ bs) ++ d.drop (p + bs.length)
    from by simp]
  have hA : ((d.take p ++ List.replicate (p - d.length) 0) ++ bs).length = p + bs.length := by
    simp only [List.length_append, List.length_take, List.length_replicate]
    omega
  rw [readSlice_drop_part _ _ q k (by omega)]
  rw [hA]
  simp only [readSlice, List.drop_drop]
  rw [show p + bs.length + (q - (p + bs.length)) = q from by omega]

theorem readSlice_overwrite_self (d : List Nat) (p : Nat) (bs : List Nat) :
    readSlice (overwriteAt d p bs) p bs.length = bs := by
  rw [overwriteAt_split]
  rw [show (d.take p ++ List.replicate (p - d.length) 0) ++ bs ++ d.drop (p + bs.length) =
    (d.take p ++ List.replicate (p - d.length) 0) ++ (bs ++ d.drop (p + bs.length))
    from by simp]
  have hA : (d.take p ++ List.replicate (p - d.length) 0).length = p ⊔ p ⊓ d.length := 
    overwriteAt_head_length d p
  rw [readSlice_drop_part _ _ p bs.length (by omega)]
  rw [hA]
  rw [show p - (p ⊔ p ⊓ d.length) = 0 from by omega]
  simp only [readSlice, List.drop_zero]
  exact List.take_left bs _

theorem wwrite_pos (st : WState) (bs : List Nat) :
    (wwrite st bs).pos = st.pos + bs.length := rfl

theorem wwrite_length (st : WState) (bs : List Nat) (h : st.data.length ≤ st.pos) :
    (wwrite st bs).data.length = st.pos + bs.length := by
  simp only [wwrite, overwriteAt_length]
  omega

theorem wwrite_pres (st : WState) (bs : List Nat) (q k : Nat)
    (hq : q + k ≤ st.pos) (hd : q + k ≤ st.data.length) :
    readSlice (wwrite st bs).data q k = readSlice st.data q k :=
  readSlice_overwrite_left st.data st.pos bs q k hq hd

theorem wwrite_self (st : WState) (bs : List Nat) :
    readSlice (wwrite st bs).data st.pos bs.length = bs :=
  readSlice_overwrite_self st.data st.pos bs

theorem backpatch_length (ip : Nat) :
    ∀ (ds : List Dirent) (st : WState),
    (∀ d ∈ ds, d.inode + 8 ≤ st.data.length) →
    (backpatch ds ip st).data.length = st.data.length := by
  intro ds
  induction ds with
  | nil =>
    intro st _
    rfl
  | cons d rest ih =>
    intro st hall
    rw [show backpatch (d :: rest) ip st =
      backpatch rest ip (wwrite (wseek st d.inode) (le64b ip)) from rfl]
    have hd := hall d (by simp)
    have hlen : (wwrite (wseek st d.inode) (le64b ip)).data.length = st.data.length := by
      simp only [wwrite, wseek, overwriteAt_length, le64b_length]
      omega
    rw [ih _ (by intro d2 hd2; rw [hlen]; exact hall d2 (by simp [hd2]))]
    exact hlen

theorem backpatch_pres (ip : Nat) :
    ∀ (ds : List Dirent) (st : WState) (q k : Nat),
    (∀ d ∈ ds, d.inode + 8 ≤ st.data.length) →
    (∀ d ∈ ds, q + k ≤ d.inode ∨ d.inode + 8 ≤ q) →
    readSlice (backpatch ds ip st).data q k = readSlice st.data q k := by
  intro ds
  induction ds with
  | nil =>
    intro st q k _ _
    rfl
  | cons d rest ih =>
    intro st q k hall hzone
    rw [show backpatch (d :: rest) ip st =
      backpatch rest ip (wwrite (wseek st d.inode) (le64b ip)) from rfl]
    have hd := hall d (by simp)
    have hlen : (wwrite (wseek st d.inode) (le64b ip)).data.length = st.data.length := by
      simp only [wwrite, wseek, overwriteAt_length, le64b_length]
      omega
    have hstep : readSlice (wwrite (wseek st d.inode) (le64b ip)).data q k =
        readSlice st.data q k := by
      rcases hzone d (by simp) with hz | hz
      · exact readSlice_overwrite_left st.data d.inode (le64b ip) q k hz (by omega)
      · refine readSlice_overwrite_right st.data d.inode (le64b ip) q k ?_
        rw [le64b_length]
        omega
    rw [ih _ q k (by intro d2 hd2; rw [hlen]; exact hall d2 (by simp [hd2]))
      (by intro d2 hd2; exact hzone d2 (by simp [hd2]))]
    exact hstep

theorem ftree_sizeOf_pos (t : FTree) : 0 < sizeOf t := by
  cases t <;> simp

theorem perm_sizeOf_eq {l l2 : List (List Nat × FTree)} (hp : l.Perm l2) :
    sizeOf l = sizeOf l2 := by
  induction hp with
  | nil => rfl
  | cons x _ ih => simp [ih]
  | swap x y l => simp; omega
  | trans _ _ ih1 ih2 => omega

theorem sortEnts_sizeOf (es : List (List Nat × FTree)) :
    sizeOf (sortEnts es) = sizeOf es :=
  perm_sizeOf_eq (List.perm_insertionSort entLe es)

theorem serializeInode_length (p o s t : Nat) : (serializeInode p o s t).length = 32 := by
  simp [serializeInode, le64b]

theorem direntsBytes_length (ds : List Dirent) :
    ((ds.map serializeDirent).flatten).length = 16 * ds.length := by
  induction ds with
  | nil => rfl
  | cons d rest ih =>
    simp only [List.map_cons, List.flatten_cons, List.length_append, ih,
      List.length_cons]
    simp [serializeDirent, le64b]
    ring

theorem list_sizeOf_pos (l : List (List Nat × FTree)) : 0 < sizeOf l := by
  cases l <;> simp

theorem writer_spec : ∀ n : Nat,
    (∀ t : FTree, sizeOf t ≤ n → ∀ st : WState, st.data.length ≤ st.pos →
      st.pos ≤ (writeNode t st).1 ∧
      (writeNode t st).2.pos = (writeNode t st).1 + 32 ∧
      (writeNode t st).2.data.length = (writeNode t st).2.pos ∧
      (∀ q k, q + k ≤ st.data.length →
        readSlice (writeNode t st).2.data q k = readSlice st.data q k) ∧
      (∃ o s, readSlice (writeNode t st).2.data (writeNode t st).1 32 =
        serializeInode 0 o s
          (match t with | .file _ => 1 | .symlink _ => 2 | .dir _ => 0))) ∧
    (∀ l : List (List Nat × FTree), sizeOf l ≤ n → ∀ st : WState,
      st.data.length ≤ st.pos →
      st.pos ≤ (writeEntries l st).2.pos ∧
      (writeEntries l st).2.data.length ≤ (writeEntries l st).2.pos ∧
      st.data.length ≤ (writeEntries l st).2.data.length ∧
      (∀ q k, q + k ≤ st.data.length →
        readSlice (writeEntries l st).2.data q k = readSlice st.data q k) ∧
      (writeEntries l st).1.length = l.length ∧
      (∀ d ∈ (writeEntries l st).1, st.pos ≤ d.inode ∧
        d.inode + 32 ≤ (writeEntries l st).2.pos)) := by
  intro n
  induction n with
  | zero =>
    constructor
    · intro t ht
      have := ftree_sizeOf_pos t
      omega
    · intro l hl
      have := list_sizeOf_pos l
      omega
  | succ m ih =>
    constructor
    · intro t ht st hst
      match t with
      | .file data =>
        rw [writeNode]
        simp only []
        have h1 : (wwrite st data).data.length = st.pos + data.length :=
          wwrite_length st data hst
        have h1p : (wwrite st data).pos = st.pos + data.length := wwrite_pos st data
        have h2 : (wwrite (wwrite st data)
            (serializeInode 0 st.pos data.length 1)).data.length =
            (wwrite st data).pos + 32 := by
          rw [wwrite_length _ _ (by omega), serializeInode_length]
        have h2p : (wwrite (wwrite st data)
            (serializeInode 0 st.pos data.length 1)).pos =
            (wwrite st data).pos + 32 := by
          rw [wwrite_pos, serializeInode_length]
        refine ⟨by omega, by omega, by omega, ?_, ?_⟩
        · intro q k hqk
          rw [wwrite_pres _ _ q k (by omega) (by omega)]
          exact wwrite_pres st data q k (by omega) hqk
        · refine ⟨st.pos, data.length, ?_⟩
          have := wwrite_self (wwrite st data) (serializeInode 0 st.pos data.length 1)
          rw [serializeInode_length] at this
          exact this
      | .symlink tgt =>
        rw [writeNode]
        simp only []
        have h1 : (wwrite st tgt).data.length = st.pos + tgt.length :=
          wwrite_length st tgt hst
        have h1p : (wwrite st tgt).pos = st.pos + tgt.length := wwrite_pos st tgt
        have h2 : (wwrite (wwrite st tgt)
            (serializeInode 0 st.pos tgt.length 2)).data.length =
            (wwrite st tgt).pos + 32 := by
          rw [wwrite_length _ _ (by omega), serializeInode_length]
        have h2p : (wwrite (wwrite st tgt)
            (serializeInode 0 st.pos tgt.length 2)).pos =
            (wwrite st tgt).pos + 32 := by
          rw [wwrite_pos, serializeInode_length]
        refine ⟨by omega, by omega, by omega, ?_, ?_⟩
        · intro q k hqk
          rw [wwrite_pres _ _ q k (by omega) (by omega)]
          exact wwrite_pres st tgt q k (by omega) hqk
        · refine ⟨st.pos, tgt.length, ?_⟩
          have := wwrite_self (wwrite st tgt) (serializeInode 0 st.pos tgt.length 2)
          rw [serializeInode_length] at this
          exact this
      | .dir es =>
        have hes : sizeOf (sortEnts es) ≤ m := by
          rw [sortEnts_sizeOf]
          simp only [FTree.dir.sizeOf_spec] at ht
          omega
        obtain ⟨L1, L2, L3, L4, L5, L6⟩ := ih.2 (sortEnts es) hes st hst
        rw [writeNode]
        simp only []
        have htbl : ((List.map serializeDirent (writeEntries (sortEnts es) st).1).flatten).length =
            16 * (writeEntries (sortEnts es) st).1.length :=
          direntsBytes_length (writeEntries (sortEnts es) st).1
        have hst2p : (wwrite (writeEntries (sortEnts es) st).2
            ((List.map serializeDirent (writeEntries (sortEnts es) st).1).flatten)).pos =
            (writeEntries (sortEnts es) st).2.pos +
              16 * (writeEntries (sortEnts es) st).1.length := by
          rw [wwrite_pos, htbl]
        have hst2l : (wwrite (writeEntries (sortEnts es) st).2
            ((List.map serializeDirent (writeEntries (sortEnts es) st).1).flatten)).data.length =
            (writeEntries (sortEnts es) st).2.pos +
              16 * (writeEntries (sortEnts es) st).1.length := by
          rw [wwrite_length _ _ L2, htbl]
        have hirl : (serializeInode 0 (writeEntries (sortEnts es) st).2.pos
            ((writeEntries (sortEnts es) st).1.length * 16) 0).length = 32 :=
          serializeInode_length _ _ _ _
        have hst3p : (wwrite (wwrite (writeEntries (sortEnts es) st).2
            ((List.map serializeDirent (writeEntries (sortEnts es) st).1).flatten))
            (serializeInode 0 (writeEntries (sortEnts es) st).2.pos
              ((writeEntries (sortEnts es) st).1.length * 16) 0)).pos =
            (wwrite (writeEntries (sortEnts es) st).2
              ((List.map serializeDirent (writeEntries (sortEnts es) st).1).flatten)).pos + 32 := by
          rw [wwrite_pos, hirl]
        have hst3l : (wwrite (wwrite (writeEntries (sortEnts es) st).2
            ((List.map serializeDirent (writeEntries (sortEnts es) st).1).flatten))
            (serializeInode 0 (writeEntries (sortEnts es) st).2.pos
              ((writeEntries (sortEnts es) st).1.length * 16) 0)).data.length =
            (wwrite (writeEntries (sortEnts es) st).2
              ((List.map serializeDirent (writeEntries (sortEnts es) st).1).flatten)).pos + 32 := by
          rw [wwrite_length _ _ (by omega), hirl]
        have hall8 : ∀ d ∈ (writeEntries (sortEnts es) st).1, d.inode + 8 ≤
            (wwrite (wwrite (writeEntries (sortEnts es) st).2
              ((List.map serializeDirent (writeEntries (sortEnts es) st).1).flatten))
              (serializeInode 0 (writeEntries (sortEnts es) st).2.pos
                ((writeEntries (sortEnts es) st).1.length * 16) 0)).data.length := by
          intro d hd
          have := (L6 d hd).2
          omega
        have hbl := backpatch_length (wwrite (writeEntries (sortEnts es) st).2
            ((List.map serializeDirent (writeEntries (sortEnts es) st).1).flatten)).pos
          (writeEntries (sortEnts es) st).1 _ hall8
        refine ⟨by omega, ?_, ?_, ?_, ?_⟩
        · simp only [wseek]
          omega
        · simp only [wseek]
          rw [hbl]
          omega
        · intro q k hqk
          simp only [wseek]
          rw [backpatch_pres _ _ _ q k hall8 ?zone]
          case zone =>
            intro d hd
            left
            have := (L6 d hd).1
            omega
          rw [wwrite_pres _ _ q k (by omega) (by omega)]
          rw [wwrite_pres _ _ q k (by omega) (by omega)]
          exact L4 q k hqk
        · refine ⟨(writeEntries (sortEnts es) st).2.pos,
            (writeEntries (sortEnts es) st).1.length * 16, ?_⟩
          simp only [wseek]
          rw [backpatch_pres _ _ _ _ 32 hall8 ?zone2]
          case zone2 =>
            intro d hd
            right
            have := (L6 d hd).2
            omega
          have hself := wwrite_self (wwrite (writeEntries (sortEnts es) st).2
            ((List.map serializeDirent (writeEntries (sortEnts es) st).1).flatten))
            (serializeInode 0 (writeEntries (sortEnts es) st).2.pos
              ((writeEntries (sortEnts es) st).1.length * 16) 0)
          rw [hirl] at hself
          exact hself
    · intro l hl st hst
      match l with
      | [] =>
        rw [writeEntries]
        simp only []
        exact ⟨le_rfl, hst, le_rfl, by simp, by simp, by simp⟩
      | (name, child) :: rest =>
        have hchild : sizeOf child ≤ m := by
          simp only [List.cons.sizeOf_spec, Prod.mk.sizeOf_spec] at hl
          have := list_sizeOf_pos rest
          omega
        have hrest : sizeOf rest ≤ m := by
          simp only [List.cons.sizeOf_spec, Prod.mk.sizeOf_spec] at hl
          have := ftree_sizeOf_pos child
          omega
        rw [writeEntries]
        simp only []
        have hst1p : (wwrite st (name ++ [0])).pos = st.pos + (name.length + 1) := by
          rw [wwrite_pos]
          simp
        have hst1l : (wwrite st (name ++ [0])).data.length =
            st.pos + (name.length + 1) := by
          rw [wwrite_length st _ hst]
          simp
        obtain ⟨N1, N2, N3, N4, N5⟩ := ih.1 child hchild (wwrite st (name ++ [0]))
          (by omega)
        obtain ⟨R1, R2, R3, R4, R5, R6⟩ := ih.2 rest hrest
          (writeNode child (wwrite st (name ++ [0]))).2 (by omega)
        refine ⟨by omega, R2, by omega, ?_, ?_, ?_⟩
        · intro q k hqk
          rw [R4 q k (by omega), N4 q k (by omega)]
          exact wwrite_pres st (name ++ [0]) q k (by omega) hqk
        · simp [R5]
        · intro d hd
          simp only [List.mem_cons] at hd
          rcases hd with hd | hd
          · subst hd
            simp only []
            omega
          · have := R6 d hd
            omega

theorem bytesCmp_eq_iff : ∀ a b : List Nat, bytesCmp a b = .eq ↔ a = b := by
  intro a
  induction a with
  | nil =>
    intro b
    cases b <;> simp [bytesCmp]
  | cons x xs ih =>
    intro b
    cases b with
    | nil => simp [bytesCmp]
    | cons y ys =>
      simp only [bytesCmp]
      cases hc : compare x y with
      | lt =>
        have := Nat.compare_eq_lt.mp hc
        simp only []
        constructor
        · intro h
          cases h
        · intro h
          injection h with h1 h2
          omega
      | gt =>
        have := Nat.compare_eq_gt.mp hc
        simp only []
        constructor
        · intro h
          cases h
        · intro h
          injection h with h1 h2
          omega
      | eq =>
        have hxy := Nat.compare_eq_eq.mp hc
        subst hxy
        simp only [ih]
        simp

theorem bytesCmp_gt_iff : ∀ a b : List Nat, bytesCmp a b = .gt ↔ bytesCmp b a = .lt := by
  intro a
  induction a with
  | nil =>
    intro b
    cases b <;> simp [bytesCmp]
  | cons x xs ih =>
    intro b
    cases b with
    | nil => simp [bytesCmp]
    | cons y ys =>
      simp only [bytesCmp]
      cases hc : compare x y with
      | lt =>
        have h1 := Nat.compare_eq_lt.mp hc
        have h2 : compare y x = .gt := Nat.compare_eq_gt.mpr h1
        rw [h2]
        simp
      | gt =>
        have h1 := Nat.compare_eq_gt.mp hc
        have h2 : compare y x = .lt := Nat.compare_eq_lt.mpr h1
        rw [h2]
        simp
      | eq =>
        have hxy := Nat.compare_eq_eq.mp hc
        subst hxy
        rw [show compare x x = .eq from Nat.compare_eq_eq.mpr rfl]
        exact ih ys

theorem bytesCmp_lt_trans : ∀ a b c : List Nat,
    bytesCmp a b = .lt → bytesCmp b c = .lt → bytesCmp a c = .lt := by
  intro a
  induction a with
  | nil =>
    intro b c hab hbc
    cases c with
    | nil =>
      cases b with
      | nil => cases hab
      | cons y ys => cases hbc
    | cons z zs => simp [bytesCmp]
  | cons x xs ih =>
    intro b c hab hbc
    cases b with
    | nil => cases hab
    | cons y ys =>
      cases c with
      | nil => cases hbc
      | cons z zs =>
        simp only [bytesCmp] at hab hbc ⊢
        cases hxy : compare x y with
        | gt => rw [hxy] at hab; cases hab
        | lt =>
          have h1 := Nat.compare_eq_lt.mp hxy
          cases hyz : compare y z with
          | gt => rw [hyz] at hbc; cases hbc
          | lt =>
            have h2 := Nat.compare_eq_lt.mp hyz
            rw [Nat.compare_eq_lt.mpr (by omega)]
          | eq =>
            have h2 := Nat.compare_eq_eq.mp hyz
            rw [Nat.compare_eq_lt.mpr (by omega)]
        | eq =>
          have h1 := Nat.compare_eq_eq.mp hxy
          subst h1
          rw [hxy] at hab
          cases hyz : compare x z with
          | gt => rw [hyz] at hbc; cases hbc
          | lt => rfl
          | eq =>
            rw [hyz] at hbc
            exact ih ys zs hab hbc

instance : IsTotal (List Nat × FTree) entLe := by
  constructor
  intro a b
  unfold entLe
  by_cases h : bytesCmp a.1 b.1 = .gt
  · right
    rw [bytesCmp_gt_iff] at h
    rw [h]
    simp
  · left
    exact h

instance : IsTrans (List Nat × FTree) entLe := by
  constructor
  intro a b c hab hbc
  unfold entLe at *
  cases hc1 : bytesCmp a.1 b.1 with
  | gt => exact absurd hc1 hab
  | eq =>
    have := (bytesCmp_eq_iff _ _).mp hc1
    rw [this]
    exact hbc
  | lt =>
    cases hc2 : bytesCmp b.1 c.1 with
    | gt => exact absurd hc2 hbc
    | eq =>
      have := (bytesCmp_eq_iff _ _).mp hc2
      rw [← this]
      rw [hc1]
      simp
    | lt =>
      rw [bytesCmp_lt_trans _ _ _ hc1 hc2]
      simp

/-- C8: the writer's wire-contract ordering.  For every directory of a
source tree with unique sibling names, the entries emitted by
`write_directory` — which serializes its dirent table by iterating the
host entries sorted with `sort_by_key(|e| e.path())` (for siblings this
is the raw-name-byte order, embodied by `sortEnts`) — are strictly
ascending by raw name bytes; and the bytes the writer leaves in the
image at the directory's payload offset are exactly the packed dirents
in that sorted emission order. -/
theorem c8_dirent_tables_sorted (t : FTree) (hu : UniqNames t) :
    ∀ es ∈ allDirs t,
      ((sortEnts es).map Prod.fst).Pairwise bytesLt ∧
      ∀ st : WState, st.data.length ≤ st.pos →
        readSlice (writeNode (.dir es) st).2.data
          (writeEntries (sortEnts es) st).2.pos
          (16 * (writeEntries (sortEnts es) st).1.length) =
        ((writeEntries (sortEnts es) st).1.map serializeDirent).flatten := by
  intro es hes
  constructor
  · have hsorted : List.Sorted entLe (sortEnts es) :=
      List.sorted_insertionSort entLe es
    have hperm : (sortEnts es).Perm es := List.perm_insertionSort entLe es
    have hnodup : ((sortEnts es).map Prod.fst).Nodup := by
      rw [List.Perm.nodup_iff (List.Perm.map Prod.fst hperm)]
      exact hu es hes
    rw [List.pairwise_map]
    have h1 : (sortEnts es).Pairwise (fun a b => entLe a b) := hsorted
    have h2 : (sortEnts es).Pairwise
        (fun a b : List Nat × FTree => a.1 ≠ b.1) := by
      rw [List.Nodup, List.pairwise_map] at hnodup
      exact hnodup
    have h3 := List.Pairwise.and h1 h2
    refine List.Pairwise.imp ?_ h3
    intro a b hab
    obtain ⟨hle, hne⟩ := hab
    unfold entLe at hle
    unfold bytesLt
    cases hc : bytesCmp a.1 b.1 with
    | gt => exact absurd hc hle
    | eq => exact absurd ((bytesCmp_eq_iff _ _).mp hc) hne
    | lt => rfl
  · intro st hst
    obtain ⟨L1, L2, L3, L4, L5, L6⟩ := (writer_spec (sizeOf (sortEnts es))).2
      (sortEnts es) le_rfl st hst
    rw [writeNode]
    simp only []
    have htbl : ((List.map serializeDirent (writeEntries (sortEnts es) st).1).flatten).length =
        16 * (writeEntries (sortEnts es) st).1.length :=
      direntsBytes_length (writeEntries (sortEnts es) st).1
    have hst2p : (wwrite (writeEntries (sortEnts es) st).2
        ((List.map serializeDirent (writeEntries (sortEnts es) st).1).flatten)).pos =
        (writeEntries (sortEnts es) st).2.pos +
          16 * (writeEntries (sortEnts es) st).1.length := by
      rw [wwrite_pos, htbl]
    have hst2l : (wwrite (writeEntries (sortEnts es) st).2
        ((List.map serializeDirent (writeEntries (sortEnts es) st).1).flatten)).data.length =
        (writeEntries (sortEnts es) st).2.pos +
          16 * (writeEntries (sortEnts es) st).1.length := by
      rw [wwrite_length _ _ L2, htbl]
    have hirl : (serializeInode 0 (writeEntries (sortEnts es) st).2.pos
        ((writeEntries (sortEnts es) st).1.length * 16) 0).length = 32 :=
      serializeInode_length _ _ _ _
    have hst3l : (wwrite (wwrite (writeEntries (sortEnts es) st).2
        ((List.map serializeDirent (writeEntries (sortEnts es) st).1).flatten))
        (serializeInode 0 (writeEntries (sortEnts es) st).2.pos
          ((writeEntries (sortEnts es) st).1.length * 16) 0)).data.length =
        (wwrite (writeEntries (sortEnts es) st).2
          ((List.map serializeDirent (writeEntries (sortEnts es) st).1).flatten)).pos + 32 := by
      rw [wwrite_length _ _ (by omega), hirl]
    have hall8 : ∀ d ∈ (writeEntries (sortEnts es) st).1, d.inode + 8 ≤
        (wwrite (wwrite (writeEntries (sortEnts es) st).2
          ((List.map serializeDirent (writeEntries (sortEnts es) st).1).flatten))
          (serializeInode 0 (writeEntries (sortEnts es) st).2.pos
            ((writeEntries (sortEnts es) st).1.length * 16) 0)).data.length := by
      intro d hd
      have := (L6 d hd).2
      omega
    simp only [wseek]
    rw [backpatch_pres _ _ _ _ _ hall8 ?zone8]
    case zone8 =>
      intro d hd
      right
      have := (L6 d hd).2
      omega
    rw [wwrite_pres _ _ _ _ (by omega) (by omega)]
    have hself := wwrite_self (writeEntries (sortEnts es) st).2
      ((List.map serializeDirent (writeEntries (sortEnts es) st).1).flatten)
    rw [htbl] at hself
    exact hself

/-- C8 witnessed on the two-entry tree with names `"b"` and `"a"` (in
that unsorted host order): the writer emits them sorted `"a" < "b"`. -/
theorem c8_dirent_tables_sorted_witness :
    UniqNames (.dir [([98], .file [5]), ([97], .file [6])]) ∧
    (((sortEnts [([98], FTree.file [5]), ([97], FTree.file [6])]).map
      Prod.fst).Pairwise bytesLt ∧
      (sortEnts [([98], FTree.file [5]), ([97], FTree.file [6])]).map Prod.fst =
        [[97], [98]]) := by
  have hu : UniqNames (.dir [([98], .file [5]), ([97], .file [6])]) := by
    intro es hes
    simp [allDirs, allDirsL] at hes
    subst hes
    decide
  refine ⟨hu, ?_, ?_⟩
  · exact (c8_dirent_tables_sorted (.dir [([98], .file [5]), ([97], .file [6])])
      hu [([98], FTree.file [5]), ([97], FTree.file [6])]
      (by simp [allDirs])).1
  · simp [sortEnts, List.insertionSort, List.orderedInsert, entLe, bytesCmp,
      compare, compareOfLessAndEq]

theorem readSlice_split (d : List Nat) (q k1 k2 : Nat) :
    readSlice d q (k1 + k2) = readSlice d q k1 ++ readSlice d (q + k1) k2 := by
  simp only [readSlice, List.take_add, List.drop_drop]
  try rw [Nat.add_comm k1 q]
  try rw [Nat.add_comm q k1]

theorem serializeHeader_length (root enc : Nat) :
    (serializeHeader root enc).length = 32 := by
  simp [serializeHeader, le64b, MAGICb]

theorem decodeHeader_serializeHeader (root enc : Nat) :
    decodeHeader (serializeHeader root enc) =
      ⟨MAGICb, root % U64, VERSION_MAJOR, VERSION_MINOR, 0, enc⟩ := by
  have : le64 (le64b root) = root % U64 := le64_le64b root
  simp [decodeHeader, serializeHeader, readSlice, MAGICb, le64b, le64,
    VERSION_MAJOR, VERSION_MINOR, U64] at this ⊢
  exact this

theorem decodeInode_serializeInode (p o s ty : Nat) :
    decodeInode (serializeInode p o s ty) = ⟨p % U64, o % U64, s % U64, ty⟩ := by
  have hp := le64_le64b p
  have ho := le64_le64b o
  have hs := le64_le64b s
  simp [decodeInode, serializeInode, readSlice, le64b, le64, U64] at hp ho hs ⊢
  refine ⟨by omega, by omega, by omega⟩

theorem wseek_data (st : WState) (p : Nat) : (wseek st p).data = st.data := rfl

theorem wseek_pos (st : WState) (p : Nat) : (wseek st p).pos = p := rfl

theorem wwrite_length_general (st : WState) (bs : List Nat) :
    (wwrite st bs).data.length = max st.data.length (st.pos + bs.length) :=
  overwriteAt_length st.data st.pos bs

/-- C9: in any image produced by `write_image`, the root inode's
`parent_inode` field equals the root inode's own offset (the writer
seeks back to the root inode record and overwrites the field with the
record's position before emitting the header), and consequently
resolving the path `".."` from the root directory yields the root
directory itself.  The side condition bounds the stream position by
`2^64` (a `u64` stream offset). -/
theorem c9_root_parent_self (es : List (List Nat × FTree))
    (hsz : (writeNode (.dir es) (wseek ⟨[], 0⟩ 32)).1 < U64) :
    ∃ (img : List Nat) (H : Header) (r : Inode),
      writeImage (.dir es) = .ok img ∧
      readHeader img = .ok H ∧
      H.root_inode = (writeNode (.dir es) (wseek ⟨[], 0⟩ 32)).1 ∧
      readInode img H.root_inode = .ok r ∧
      r.parent_inode = H.root_inode ∧
      (∀ fuel, resolvePath ⟨img, H⟩ r [46, 46] 0 fuel = .ret (.ok (some r))) := by
  obtain ⟨W1, W2, W3, W4, W5⟩ := (writer_spec (sizeOf (FTree.dir es))).1
    (FTree.dir es) le_rfl (wseek ⟨[], 0⟩ 32) (by simp [wseek])
  obtain ⟨o, s, hrec⟩ := W5
  obtain ⟨rp, st2, hW⟩ : ∃ rp st2,
      writeNode (.dir es) (wseek ⟨[], 0⟩ 32) = (rp, st2) := ⟨_, _, rfl⟩
  rw [hW] at W1 W2 W3 hrec hsz
  simp only [] at W1 W2 W3 hrec hsz
  simp only [wseek_pos] at W1
  have hrp32 : 32 ≤ rp := W1
  have hst2len : st2.data.length = rp + 32 := by omega
  have hst3l : (wwrite (wseek st2 rp) (le64b rp)).data.length = rp + 32 := by
    rw [wwrite_length_general]
    simp only [wseek_data, wseek_pos, le64b_length]
    omega
  have hst3data : (wwrite (wseek st2 rp) (le64b rp)).data =
      overwriteAt st2.data rp (le64b rp) := rfl
  have h8 : readSlice (wwrite (wseek st2 rp) (le64b rp)).data rp 8 = le64b rp := by
    have := wwrite_self (wseek st2 rp) (le64b rp)
    rw [le64b_length, wseek_pos] at this
    exact this
  have h24 : readSlice (wwrite (wseek st2 rp) (le64b rp)).data (rp + 8) 24 =
      readSlice st2.data (rp + 8) 24 := by
    rw [hst3data]
    refine readSlice_overwrite_right st2.data rp (le64b rp) (rp + 8) 24 ?_
    rw [le64b_length]
  have hsplit32 : ∀ (d : List Nat) (q : Nat),
      readSlice d q 32 = readSlice d q 8 ++ readSlice d (q + 8) 24 := by
    intro d q
    rw [show (32 : Nat) = 8 + 24 from rfl, readSlice_split]
  have hser : serializeInode 0 o s 0 =
      le64b 0 ++ (le64b o ++ le64b s ++ [0] ++ List.replicate 7 0) := by
    simp [serializeInode]
  have hlen8 : (readSlice st2.data rp 8).length = 8 :=
    readSlice_length st2.data rp 8 (by omega)
  have htail : readSlice st2.data (rp + 8) 24 =
      le64b o ++ le64b s ++ [0] ++ List.replicate 7 0 := by
    have h := hrec
    rw [hsplit32, hser] at h
    have := List.append_inj_right h (by rw [hlen8, le64b_length])
    simpa using this
  have hrec3 : readSlice (wwrite (wseek st2 rp) (le64b rp)).data rp 32 =
      serializeInode rp o s 0 := by
    rw [hsplit32, h8, h24, htail]
    simp [serializeInode]
  have himglen : (wwrite (wseek (wwrite (wseek st2 rp) (le64b rp)) 0)
      (serializeHeader rp 0)).data.length = rp + 32 := by
    rw [wwrite_length_general]
    simp only [wseek_data, wseek_pos, serializeHeader_length]
    omega
  have hhdr : readSlice (wwrite (wseek (wwrite (wseek st2 rp) (le64b rp)) 0)
      (serializeHeader rp 0)).data 0 32 = serializeHeader rp 0 := by
    have := wwrite_self (wseek (wwrite (wseek st2 rp) (le64b rp)) 0)
      (serializeHeader rp 0)
    rw [serializeHeader_length, wseek_pos] at this
    exact this
  have hrec4 : readSlice (wwrite (wseek (wwrite (wseek st2 rp) (le64b rp)) 0)
      (serializeHeader rp 0)).data rp 32 = serializeInode rp o s 0 := by
    rw [show (wwrite (wseek (wwrite (wseek st2 rp) (le64b rp)) 0)
        (serializeHeader rp 0)).data =
      overwriteAt (wwrite (wseek st2 rp) (le64b rp)).data 0 (serializeHeader rp 0)
      from rfl]
    rw [readSlice_overwrite_right _ _ _ rp 32 (by rw [serializeHeader_length]; omega)]
    exact hrec3
  have hH : readHeader (wwrite (wseek (wwrite (wseek st2 rp) (le64b rp)) 0)
      (serializeHeader rp 0)).data = .ok ⟨MAGICb, rp, 0, 0, 0, 0⟩ := by
    unfold readHeader
    rw [readExactAt_ok _ 32 0 (by omega)]
    rw [hhdr]
    simp only []
    rw [decodeHeader_serializeHeader, Nat.mod_eq_of_lt hsz]
    rfl
  have hri : readInode (wwrite (wseek (wwrite (wseek st2 rp) (le64b rp)) 0)
      (serializeHeader rp 0)).data rp = .ok ⟨rp, o % U64, s % U64, 0⟩ := by
    unfold readInode
    rw [readExactAt_ok _ 32 rp (by omega)]
    rw [hrec4]
    simp only []
    rw [decodeInode_serializeInode, Nat.mod_eq_of_lt hsz]
  refine ⟨(wwrite (wseek (wwrite (wseek st2 rp) (le64b rp)) 0)
      (serializeHeader rp 0)).data, ⟨MAGICb, rp, 0, 0, 0, 0⟩,
    ⟨rp, o % U64, s % U64, 0⟩, ?_, hH, ?_, hri, rfl, ?_⟩
  · simp only [writeImage, hW]
  · rw [hW]
  · intro fuel
    rw [resolvePath.eq_def]
    rw [dif_neg (by simp [LINK_LOOP_MAX])]
    have hsplit : ([46, 46] : List Nat).splitOn 47 = [[46, 46]] := by rfl
    simp only [hsplit]
    simp [resolveSegs, Inode.inodeType, InodeType.tryFrom, Inode.parentInode, hri]

/-- C9 witnessed on the empty root directory. -/
theorem c9_root_parent_self_witness :
    (writeNode (.dir ([] : List (List Nat × FTree))) (wseek ⟨[], 0⟩ 32)).1 < U64 ∧
    ∃ (img : List Nat) (H : Header) (r : Inode),
      writeImage (.dir ([] : List (List Nat × FTree))) = .ok img ∧
      readHeader img = .ok H ∧
      H.root_inode =
        (writeNode (.dir ([] : List (List Nat × FTree))) (wseek ⟨[], 0⟩ 32)).1 ∧
      readInode img H.root_inode = .ok r ∧
      r.parent_inode = H.root_inode ∧
      (∀ fuel, resolvePath ⟨img, H⟩ r [46, 46] 0 fuel = .ret (.ok (some r))) := by
  have hs : (writeNode (.dir ([] : List (List Nat × FTree)))
      (wseek ⟨[], 0⟩ 32)).1 < U64 := by
    simp [writeNode, writeEntries, sortEnts, List.insertionSort, wwrite, wseek,
      overwriteAt, backpatch, serializeInode, le64b, U64]
  exact ⟨hs, c9_root_parent_self [] hs⟩
